import Mathlib

/-!
# Verification of the cdnfs content-addressed snapshot engine

A shallow embedding of `cdnfs.py`: the identity scheme (truncated SHA-256),
the canonical manifest codec (sorted entries, JSON object encoding), the
recursive snapshot builder with deduplication, and the snapshot readers
(listing and download).  Bytes are modelled as `Nat` (each `< 256` where it
matters), byte strings as `List Nat`, and Python strings as Lean `String`.
-/

set_option maxRecDepth 2000000

namespace CdnFs

/-! ## SHA-256 (model of `hashlib.sha256(...).hexdigest()`)

Modelled from the spec: `hashlib` is the Python standard library, external to
the repository; §3 of the spec fixes the digest to SHA-256 with a lowercase
hexadecimal rendering, which we implement directly (FIPS 180-4).  32-bit
machine words are `Nat` reduced modulo `2^32`. -/

/-- Reduce to a 32-bit word. -/
def w32 (x : Nat) : Nat := x % 4294967296

/-- Right rotation of a 32-bit word by `n` bits. -/
def rotr (n x : Nat) : Nat := w32 ((x >>> n) ||| (x <<< (32 - n)))

def bigSigma0 (x : Nat) : Nat := (rotr 2 x) ^^^ (rotr 13 x) ^^^ (rotr 22 x)

def bigSigma1 (x : Nat) : Nat := (rotr 6 x) ^^^ (rotr 11 x) ^^^ (rotr 25 x)

def smallSigma0 (x : Nat) : Nat := (rotr 7 x) ^^^ (rotr 18 x) ^^^ (x >>> 3)

def smallSigma1 (x : Nat) : Nat := (rotr 17 x) ^^^ (rotr 19 x) ^^^ (x >>> 10)

def chF (x y z : Nat) : Nat := (x &&& y) ^^^ ((x ^^^ 4294967295) &&& z)

def majF (x y z : Nat) : Nat := (x &&& y) ^^^ (x &&& z) ^^^ (y &&& z)

/-- The 64 SHA-256 round constants. -/
def roundK : List Nat :=
  [1116352408, 1899447441, 3049323471, 3921009573, 961987163,
   1508970993, 2453635748, 2870763221, 3624381080, 310598401,
   607225278, 1426881987, 1925078388, 2162078206, 2614888103,
   3248222580, 3835390401, 4022224774, 264347078, 604807628,
   770255983, 1249150122, 1555081692, 1996064986, 2554220882,
   2821834349, 2952996808, 3210313671, 3336571891, 3584528711,
   113926993, 338241895, 666307205, 773529912, 1294757372,
   1396182291, 1695183700, 1986661051, 2177026350, 2456956037,
   2730485921, 2820302411, 3259730800, 3345764771, 3516065817,
   3600352804, 4094571909, 275423344, 430227734, 506948616,
   659060556, 883997877, 958139571, 1322822218, 1537002063,
   1747873779, 1955562222, 2024104815, 2227730452, 2361852424,
   2428436474, 2756734187, 3204031479, 3329325298]

/-- The initial SHA-256 state. -/
def initH : List Nat :=
  [1779033703, 3144134277, 1013904242, 2773480762,
   1359893119, 2600822924, 528734635, 1541459225]

/-- `k` bytes of `n`, big-endian. -/
def beBytes : Nat → Nat → List Nat
  | 0, _ => []
  | k + 1, n => beBytes k (n >>> 8) ++ [n % 256]

/-- SHA-256 padding: append `0x80`, zeros to 56 mod 64, then the bit length
as 8 big-endian bytes. -/
def padMessage (msg : List Nat) : List Nat :=
  msg ++ 128 :: List.replicate ((119 - msg.length % 64) % 64) 0
      ++ beBytes 8 (msg.length * 8)

/-- Big-endian 32-bit words from bytes. -/
def toWords : List Nat → List Nat
  | a :: b :: c :: d :: rest =>
      ((a <<< 24) ||| (b <<< 16) ||| (c <<< 8) ||| d) :: toWords rest
  | _ => []

/-- Extend 16 message words to the 64-entry message schedule. -/
def schedule (ws : List Nat) : List Nat :=
  (List.range 48).foldl (fun ws _ =>
    let i := ws.length
    ws ++ [w32 (smallSigma1 (ws.getD (i - 2) 0) + ws.getD (i - 7) 0 +
                smallSigma0 (ws.getD (i - 15) 0) + ws.getD (i - 16) 0)]) ws

/-- One SHA-256 round on the eight-word state. -/
def shaRound (st : List Nat) (k w : Nat) : List Nat :=
  let a := st.getD 0 0
  let b := st.getD 1 0
  let c := st.getD 2 0
  let d := st.getD 3 0
  let e := st.getD 4 0
  let f := st.getD 5 0
  let g := st.getD 6 0
  let h := st.getD 7 0
  let t1 := w32 (h + bigSigma1 e + chF e f g + k + w)
  let t2 := w32 (bigSigma0 a + majF a b c)
  [w32 (t1 + t2), a, b, c, w32 (d + t1), e, f, g]

/-- Compress one 64-byte chunk into the running state. -/
def compressChunk (h0 : List Nat) (chunk : List Nat) : List Nat :=
  let ws := schedule (toWords chunk)
  let st := (roundK.zip ws).foldl (fun st kw => shaRound st kw.1 kw.2) h0
  List.zipWith (fun x y => w32 (x + y)) h0 st

/-- Split a byte string into 64-byte chunks. -/
def chunksOf64 (l : List Nat) : List (List Nat) :=
  (List.range ((l.length + 63) / 64)).map (fun i => (l.drop (64 * i)).take 64)

/-- The SHA-256 digest of a byte string, as 32 bytes. -/
def sha256bytes (msg : List Nat) : List Nat :=
  ((chunksOf64 (padMessage msg)).foldl compressChunk initH).foldr
    (fun w acc => beBytes 4 w ++ acc) []

/-- A lowercase hexadecimal digit. -/
def hexChar (n : Nat) : Char :=
  if n < 10 then Char.ofNat (48 + n) else Char.ofNat (87 + n)

/-- Two lowercase hex digits of a byte. -/
def byteHex (b : Nat) : List Char := [hexChar (b / 16), hexChar (b % 16)]

/-- Four lowercase hex digits, for `\uXXXX` escapes. -/
def hex4 (n : Nat) : List Char :=
  [hexChar (n / 4096 % 16), hexChar (n / 256 % 16),
   hexChar (n / 16 % 16), hexChar (n % 16)]

/-- Model of `hashlib.sha256(data).hexdigest()`: the lowercase hexadecimal
rendering of the SHA-256 digest. -/
def hexdigest (data : List Nat) : String :=
  ⟨(sha256bytes data).foldr (fun b acc => byteHex b ++ acc) []⟩

/-! ## Identity scheme -/

/-- `__main__ push` (line 288): `int((manifest_hash_bits + 3) / 4)`, the number
of hex digits kept for identifiers. -/
def manifestHashDigits (manifest_hash_bits : Nat) : Nat :=
  (manifest_hash_bits + 3) / 4

/-- Lines 143/161: `hashlib.sha256(data).hexdigest()[0:manifest_hash_digits]`;
the Python slice keeps the first `manifest_hash_digits` characters. -/
def contentHash (digits : Nat) (data : List Nat) : String :=
  ⟨(hexdigest data).data.take digits⟩

/-! ## Local filesystem model

The local tree read through `os.listdir` / `os.path.isdir` / `os.path.isfile`.
A directory's children are listed in the filesystem's enumeration order; names
within one directory are the distinct results of `os.listdir`.  `link` stands
for any entry that is neither a regular file nor a directory. -/

inductive FSEntry where
  | file (content : List Nat)
  | dir (children : List (String × FSEntry))
  | link

/-! ## Manifest entries and the codec -/

/-- One recorded manifest entry: `manifest[item] = (hash, size)`, where a size
of 0 denotes a subfolder. -/
structure MEntry where
  name : String
  hash : String
  size : Nat
deriving DecidableEq, Repr

/-- Python compares strings lexicographically by code point. -/
def pyStrLtB : List Char → List Char → Bool
  | [], [] => false
  | [], _ :: _ => true
  | _ :: _, [] => false
  | c :: cs, d :: ds =>
      if c < d then true
      else if d < c then false
      else pyStrLtB cs ds

/-- Python `s <= t` on strings: strictly smaller or equal. -/
def pyStrLE (s t : String) : Prop := pyStrLtB s.data t.data = true ∨ s = t

instance : DecidableRel pyStrLE := fun s t => by
  unfold pyStrLE; infer_instance

/-- Line 157 sort key comparison: `(int(x[1][1]), x[0])`, i.e. `(size, name)`
compared lexicographically as Python compares tuples of an int and a str. -/
def entryLE (a b : MEntry) : Prop :=
  a.size < b.size ∨ (a.size = b.size ∧ pyStrLE a.name b.name)

instance : DecidableRel entryLE := fun a b => by
  unfold entryLE; infer_instance

/-- Line 157: `sorted(manifest.items(), key=lambda x: (int(x[1][1]), x[0]))`. -/
def sortEntries (es : List MEntry) : List MEntry :=
  List.insertionSort entryLE es

/-- `json.dumps` escaping of one character (`ensure_ascii=True`): `"`, `\`,
control characters and all non-ASCII characters are escaped. -/
def escapeChar (c : Char) : List Char :=
  if c = '"' then ['\\', '"']
  else if c = '\\' then ['\\', '\\']
  else if c = '\n' then ['\\', 'n']
  else if c = '\t' then ['\\', 't']
  else if c = '\r' then ['\\', 'r']
  else if c.toNat = 8 then ['\\', 'b']
  else if c.toNat = 12 then ['\\', 'f']
  else if c.toNat < 32 ∨ c.toNat ≥ 127 then
    if c.toNat < 65536 then '\\' :: 'u' :: hex4 c.toNat
    else
      let n := c.toNat - 65536
      ('\\' :: 'u' :: hex4 (55296 + n / 1024)) ++
      ('\\' :: 'u' :: hex4 (56320 + n % 1024))
  else [c]

/-- A JSON string literal for `s`. -/
def quoteJson (s : String) : List Char :=
  '"' :: s.data.foldr (fun c acc => escapeChar c ++ acc) ['"']

/-- Decimal digits of `n`, most significant first (what `json.dumps` prints
for a non-negative int); the first argument is recursion fuel. -/
def natDecimalAux : Nat → Nat → List Char
  | 0, _ => []
  | fuel + 1, n =>
      if n < 10 then [Char.ofNat (48 + n)]
      else natDecimalAux fuel (n / 10) ++ [Char.ofNat (48 + n % 10)]

def natDecimal (n : Nat) : List Char := natDecimalAux (n + 1) n

/-- One member of the manifest object: `"name": ["hash", size]`. -/
def encodeEntryJson (e : MEntry) : List Char :=
  quoteJson e.name ++ (':' :: ' ' :: '[' :: quoteJson e.hash) ++
    (',' :: ' ' :: natDecimal e.size) ++ [']']

/-- Line 158: `json.dumps({k: v for k, v in manifest})` with the default
separators, on the already-sorted entry list. -/
def manifestJsonChars (es : List MEntry) : List Char :=
  '{' :: List.intercalate [',', ' '] (es.map encodeEntryJson) ++ ['}']

/-- `.encode("latin_1")`: one byte per code point (the `json.dumps` output is
pure ASCII because `ensure_ascii` is on). -/
def latin1 (cs : List Char) : List Nat := cs.map Char.toNat

/-- The canonical manifest bytes of a (not yet sorted) entry list. -/
def manifestBytes (es : List MEntry) : List Nat :=
  latin1 (manifestJsonChars (sortEntries es))

/-! ## Content types and compression flags -/

/-- The suffix of `cs` starting at its last `'.'`, if any. -/
def lastDotSuffix : List Char → Option (List Char)
  | [] => none
  | c :: rest =>
      match lastDotSuffix rest with
      | some s => some s
      | none => if c = '.' then some (c :: rest) else none

/-- `os.path.splitext(...)[1]` on a bare item name (the base path and any
directory components never affect the basename's extension): the extension
starts at the last dot, except that a name consisting of leading dots only
before that dot has no extension. -/
def extOf (name : String) : String :=
  match lastDotSuffix name.data with
  | some suffix =>
      if (name.data.take (name.data.length - suffix.length)).all (· == '.')
      then "" else ⟨suffix⟩
  | none => ""

/-- Line 147: `content_types[ext] if ext in content_types else
"application/octet-stream"`. -/
def lookupContentType (content_types : List (String × String)) (ext : String) :
    String :=
  match content_types.lookup ext with
  | some ct => ct
  | none => "application/octet-stream"

/-! ## The storage service and the build state -/

/-- The configuration data consumed by `upload_snapshot` (its parameters
`local_exclusions`, `manifest_hash_digits`, `cache_control`, `content_types`,
`gzip_types`). -/
structure Config where
  local_exclusions : List String
  manifest_hash_digits : Nat
  cache_control : String
  content_types : List (String × String)
  gzip_types : List String

/-- One recorded `put_file` call. -/
structure PutCall where
  hash : String
  data : List Nat
  content_type : String
  cache_control : String
  compress : Bool
deriving DecidableEq, Repr

/-- The mutable state of the `Storage` object during one build: the in-memory
`listing` seeded by `list_storage` and grown at line 150, the sequence of
`put_file` calls issued so far, and the names warned about at line 153.

Modelled from the spec: `put_file` itself is provided by the out-of-scope
backends (`S3Storage`/`GCSStorage`); per §4.5 a put persists the given bytes
under the given identifier (gzip-compressing transparently when asked), so a
put is recorded as its argument tuple. -/
structure BuildState where
  listing : List String
  puts : List PutCall
  warnings : List String
deriving DecidableEq, Repr

/-- Lines 115–116: `Storage.file_exists`, membership in the in-memory
listing. -/
def file_exists (st : BuildState) (hash : String) : Prop :=
  hash ∈ st.listing

instance (st : BuildState) (hash : String) : Decidable (file_exists st hash) :=
  by unfold file_exists; infer_instance

/-- Record a `put_file` call. -/
def put_file (st : BuildState) (hash : String) (data : List Nat)
    (content_type cache_control : String) (compress : Bool) : BuildState :=
  { st with puts := st.puts ++ [⟨hash, data, content_type, cache_control, compress⟩] }

/-! ## The snapshot builder (`Storage.upload_snapshot`, lines 124–167)

The walk is stated on the in-memory tree: `upload_snapshot` is invoked on a
directory entry and follows lines 124–167; `uploadItems` is the loop body of
lines 127–153 over `os.listdir`.  Paths (`base_path`, `relative_path`) only
feed `os.listdir` and log output, so the tree argument replaces them. -/

/-- Lines 155–167: sort and encode the collected manifest, upload it when its
identifier is not yet in the listing, and return its identifier.  The `if
manifest is not None` guard at line 155 is always taken, since `manifest` is
bound to a dict at line 125.  Line 162 checks `service.file_exists` — the
global `service` is the same `Storage` object as `self` when the tool runs,
so it reads the same listing. -/
def finishManifest (cfg : Config) (ms : List MEntry × BuildState) :
    String × BuildState :=
  let manifest := sortEntries ms.1
  let manifest_json := latin1 (manifestJsonChars manifest)
  let manifest_hash := contentHash cfg.manifest_hash_digits manifest_json
  let st2 :=
    if file_exists ms.2 manifest_hash then ms.2
    else put_file ms.2 manifest_hash manifest_json
      "application/json; charset=utf-8" cfg.cache_control true
  (manifest_hash, st2)

mutual

/-- The body of the `for item in os.listdir(local_path)` loop (lines
127–153) for a single `item`: the entry it records in `manifest` (if any)
and the state it leaves. -/
def uploadItem (cfg : Config) (item : String) :
    FSEntry → BuildState → Option MEntry × BuildState
  | .dir cs, st =>
      -- lines 129–134: recurse, record `(folder_hash, 0)` when truthy
      let fh := finishManifest cfg (uploadItems cfg cs st)
      (if fh.1 ≠ "" then some ⟨item, fh.1, 0⟩ else none, fh.2)
  | .file content, st =>
      -- lines 136–151
      if item ∈ cfg.local_exclusions then (none, st)
      else if content.length > 0 then
        let file_hash := contentHash cfg.manifest_hash_digits content
        let st1 :=
          if file_exists st file_hash then st
          else
            let stP := put_file st file_hash content
              (lookupContentType cfg.content_types (extOf item))
              cfg.cache_control (extOf item ∈ cfg.gzip_types)
            { stP with listing := stP.listing ++ [file_hash] }
        (some ⟨item, file_hash, content.length⟩, st1)
      else (none, st)
  | .link, st =>
      -- lines 152–153: warn and ignore
      (none, { st with warnings := st.warnings ++ [item] })

/-- The whole `for item in os.listdir(local_path)` loop (lines 127–153):
the recorded manifest entries in insertion order, and the final state. -/
def uploadItems (cfg : Config) :
    List (String × FSEntry) → BuildState → List MEntry × BuildState
  | [], st => ([], st)
  | (item, entry) :: rest, st =>
      let r := uploadItem cfg item entry st
      let ms := uploadItems cfg rest r.2
      (match r.1 with | some e => e :: ms.1 | none => ms.1, ms.2)

end

/-- `Storage.upload_snapshot` (lines 124–167) on an in-memory directory:
collect the manifest over the children, then sort, encode, upload and return
its identifier.  The source is only ever invoked on directories; for
completeness other entries yield the empty identifier and leave the state
unchanged. -/
def upload_snapshot (cfg : Config) (entry : FSEntry) (st : BuildState) :
    String × BuildState :=
  match entry with
  | .dir children => finishManifest cfg (uploadItems cfg children st)
  | .file _ => ("", st)
  | .link => ("", st)

/-! ## The pure skeleton of the build

The manifest entry recorded for an item, and hence every identifier, does not
depend on the storage state; these mirror functions compute them directly and
are proved equal to the stateful walk below. -/

mutual

/-- The manifest entry the loop body records for `item` (if any). -/
def itemEntry (cfg : Config) (item : String) : FSEntry → Option MEntry
  | .dir cs =>
      let fh := contentHash cfg.manifest_hash_digits
        (latin1 (manifestJsonChars (sortEntries (itemsEntries cfg cs))))
      if fh ≠ "" then some ⟨item, fh, 0⟩ else none
  | .file content =>
      if item ∈ cfg.local_exclusions then none
      else if content.length > 0 then
        some ⟨item, contentHash cfg.manifest_hash_digits content, content.length⟩
      else none
  | .link => none

/-- The manifest entries recorded for a directory listing, in enumeration
order. -/
def itemsEntries (cfg : Config) : List (String × FSEntry) → List MEntry
  | [] => []
  | (item, entry) :: rest =>
      match itemEntry cfg item entry with
      | some e => e :: itemsEntries cfg rest
      | none => itemsEntries cfg rest

end

/-- The identifier `upload_snapshot` computes for a directory listing. -/
def dirHash (cfg : Config) (children : List (String × FSEntry)) : String :=
  contentHash cfg.manifest_hash_digits (manifestBytes (itemsEntries cfg children))

/-! ## A mutual induction principle for the nested tree -/

mutual

theorem fsRecAll (P : FSEntry → Prop) (Q : List (String × FSEntry) → Prop)
    (hfile : ∀ c, P (.file c)) (hlink : P .link)
    (hdir : ∀ cs, Q cs → P (.dir cs))
    (hnil : Q []) (hcons : ∀ n e rest, P e → Q rest → Q ((n, e) :: rest)) :
    ∀ e : FSEntry, P e
  | .file c => hfile c
  | .link => hlink
  | .dir cs => hdir cs (fsRecListAll P Q hfile hlink hdir hnil hcons cs)

theorem fsRecListAll (P : FSEntry → Prop) (Q : List (String × FSEntry) → Prop)
    (hfile : ∀ c, P (.file c)) (hlink : P .link)
    (hdir : ∀ cs, Q cs → P (.dir cs))
    (hnil : Q []) (hcons : ∀ n e rest, P e → Q rest → Q ((n, e) :: rest)) :
    ∀ l : List (String × FSEntry), Q l
  | [] => hnil
  | (n, e) :: rest =>
      hcons n e rest (fsRecAll P Q hfile hlink hdir hnil hcons e)
        (fsRecListAll P Q hfile hlink hdir hnil hcons rest)

end

/-! ## The recorded entries do not depend on the storage state -/

theorem finishManifest_fst (cfg : Config) (ms : List MEntry × BuildState) :
    (finishManifest cfg ms).1 =
      contentHash cfg.manifest_hash_digits (manifestBytes ms.1) := rfl

theorem build_fst_pure (cfg : Config) :
    (∀ e item st, (uploadItem cfg item e st).1 = itemEntry cfg item e) ∧
    (∀ l st, (uploadItems cfg l st).1 = itemsEntries cfg l) := by
  have hfile : ∀ c, ∀ item st,
      (uploadItem cfg item (.file c) st).1 = itemEntry cfg item (.file c) := by
    intro c item st
    simp only [uploadItem, itemEntry]
    split
    · rfl
    · split <;> rfl
  have hlink : ∀ item st,
      (uploadItem cfg item .link st).1 = itemEntry cfg item .link := by
    intro item st; rfl
  have hdir : ∀ cs, (∀ st, (uploadItems cfg cs st).1 = itemsEntries cfg cs) →
      ∀ item st, (uploadItem cfg item (.dir cs) st).1 = itemEntry cfg item (.dir cs) := by
    intro cs hq item st
    simp only [uploadItem, itemEntry, finishManifest_fst, hq, manifestBytes]
  have hnil : ∀ st, (uploadItems cfg [] st).1 = itemsEntries cfg [] := by
    intro st; rfl
  have hcons : ∀ n e rest,
      (∀ item st, (uploadItem cfg item e st).1 = itemEntry cfg item e) →
      (∀ st, (uploadItems cfg rest st).1 = itemsEntries cfg rest) →
      ∀ st, (uploadItems cfg ((n, e) :: rest) st).1 =
        itemsEntries cfg ((n, e) :: rest) := by
    intro n e rest hp hq st
    simp only [uploadItems, itemsEntries, hp, hq]
  exact ⟨fsRecAll _ _ hfile hlink hdir hnil hcons,
         fsRecListAll _ _ hfile hlink hdir hnil hcons⟩

theorem uploadItems_fst (cfg : Config) (l : List (String × FSEntry))
    (st : BuildState) : (uploadItems cfg l st).1 = itemsEntries cfg l :=
  (build_fst_pure cfg).2 l st

theorem uploadItem_fst (cfg : Config) (item : String) (e : FSEntry)
    (st : BuildState) : (uploadItem cfg item e st).1 = itemEntry cfg item e :=
  (build_fst_pure cfg).1 e item st

/-- The identifier returned for a directory is a function of the tree alone. -/
theorem upload_snapshot_fst (cfg : Config) (children : List (String × FSEntry))
    (st : BuildState) :
    (upload_snapshot cfg (.dir children) st).1 = dirHash cfg children := by
  simp only [upload_snapshot, finishManifest_fst, uploadItems_fst, dirHash]

/-! ## The canonical sort is an invariant of the entry set -/

theorem pyStrLtB_irrefl : ∀ l, pyStrLtB l l = false := by
  intro l
  induction l with
  | nil => rfl
  | cons c cs ih => simp [pyStrLtB, ih]

theorem pyStrLtB_asymm : ∀ l m, pyStrLtB l m = true → pyStrLtB m l = true → False := by
  intro l
  induction l with
  | nil =>
    intro m h1 h2
    cases m with
    | nil => simp [pyStrLtB] at h1
    | cons d ds => simp [pyStrLtB] at h2
  | cons c cs ih =>
    intro m h1 h2
    cases m with
    | nil => simp [pyStrLtB] at h1
    | cons d ds =>
      by_cases hcd : c < d
      · have hdc : ¬ d < c := lt_asymm hcd
        simp [pyStrLtB, hcd, hdc] at h2
      · by_cases hdc : d < c
        · simp [pyStrLtB, hcd, hdc] at h1
        · simp [pyStrLtB, hcd, hdc] at h1 h2
          exact ih ds h1 h2

theorem pyStrLtB_trans : ∀ l m n, pyStrLtB l m = true → pyStrLtB m n = true →
    pyStrLtB l n = true := by
  intro l
  induction l with
  | nil =>
    intro m n h1 h2
    cases m with
    | nil => simp [pyStrLtB] at h1
    | cons d ds =>
      cases n with
      | nil => simp [pyStrLtB] at h2
      | cons e es => rfl
  | cons c cs ih =>
    intro m n h1 h2
    cases m with
    | nil => simp [pyStrLtB] at h1
    | cons d ds =>
      cases n with
      | nil => simp [pyStrLtB] at h2
      | cons e es =>
        by_cases hcd : c < d
        · by_cases hde : d < e
          · simp [pyStrLtB, hcd.trans hde]
          · by_cases hed : e < d
            · simp [pyStrLtB, hcd, hde, hed] at h2
            · have : d = e := le_antisymm (not_lt.mp hed) (not_lt.mp hde)
              subst this
              simp [pyStrLtB, hcd]
        · by_cases hdc : d < c
          · simp [pyStrLtB, hcd, hdc] at h1
          · have hceq : c = d := le_antisymm (not_lt.mp hdc) (not_lt.mp hcd)
            subst hceq
            simp only [pyStrLtB, lt_self_iff_false, if_false] at h1
            by_cases hde : c < e
            · simp [pyStrLtB, hde]
            · by_cases hed : e < c
              · simp [pyStrLtB, hde, hed] at h2
              · simp only [pyStrLtB, if_neg hde, if_neg hed] at h2 ⊢
                exact ih ds es h1 h2

theorem pyStrLtB_connex : ∀ l m, pyStrLtB l m = false → pyStrLtB m l = false →
    l = m := by
  intro l
  induction l with
  | nil =>
    intro m h1 _
    cases m with
    | nil => rfl
    | cons d ds => simp [pyStrLtB] at h1
  | cons c cs ih =>
    intro m h1 h2
    cases m with
    | nil => simp [pyStrLtB] at h2
    | cons d ds =>
      by_cases hcd : c < d
      · simp [pyStrLtB, hcd] at h1
      · by_cases hdc : d < c
        · simp [pyStrLtB, hcd, hdc] at h2
        · have hce : c = d := le_antisymm (not_lt.mp hdc) (not_lt.mp hcd)
          subst hce
          simp only [pyStrLtB, if_neg hcd] at h1 h2
          rw [ih ds h1 h2]

theorem pyStrLE_total : ∀ s t : String, pyStrLE s t ∨ pyStrLE t s := by
  intro s t
  by_cases h1 : pyStrLtB s.data t.data = true
  · exact Or.inl (Or.inl h1)
  · by_cases h2 : pyStrLtB t.data s.data = true
    · exact Or.inr (Or.inl h2)
    · left
      right
      have := pyStrLtB_connex s.data t.data
        (Bool.not_eq_true _ ▸ h1) (Bool.not_eq_true _ ▸ h2)
      cases s
      cases t
      exact congrArg String.mk this

theorem pyStrLE_trans : ∀ s t u : String, pyStrLE s t → pyStrLE t u → pyStrLE s u := by
  intro s t u h1 h2
  rcases h1 with h1 | rfl
  · rcases h2 with h2 | rfl
    · exact Or.inl (pyStrLtB_trans _ _ _ h1 h2)
    · exact Or.inl h1
  · exact h2

theorem pyStrLE_antisymm : ∀ s t : String, pyStrLE s t → pyStrLE t s → s = t := by
  intro s t h1 h2
  rcases h1 with h1 | rfl
  · rcases h2 with h2 | rfl
    · exact absurd (pyStrLtB_asymm _ _ h1 h2) (by simp)
    · rfl
  · rfl

theorem entryLE_total : ∀ a b : MEntry, entryLE a b ∨ entryLE b a := by
  intro a b
  unfold entryLE
  rcases Nat.lt_trichotomy a.size b.size with h | h | h
  · exact Or.inl (Or.inl h)
  · rcases pyStrLE_total a.name b.name with h' | h'
    · exact Or.inl (Or.inr ⟨h, h'⟩)
    · exact Or.inr (Or.inr ⟨h.symm, h'⟩)
  · exact Or.inr (Or.inl h)

theorem entryLE_trans : ∀ a b c : MEntry, entryLE a b → entryLE b c → entryLE a c := by
  intro a b c hab hbc
  unfold entryLE at *
  rcases hab with h | ⟨h, hn⟩ <;> rcases hbc with h' | ⟨h', hn'⟩
  · exact Or.inl (h.trans h')
  · exact Or.inl (h' ▸ h)
  · exact Or.inl (h ▸ h')
  · exact Or.inr ⟨h.trans h', pyStrLE_trans _ _ _ hn hn'⟩

instance : IsTotal MEntry entryLE := ⟨entryLE_total⟩

instance : IsTrans MEntry entryLE := ⟨entryLE_trans⟩

/-- The sort key of line 157. -/
def entryKey (e : MEntry) : Nat × String := (e.size, e.name)

/-- Mutual `entryLE` forces equal sort keys. -/
theorem entryKey_eq_of_le_le {a b : MEntry} (hab : entryLE a b)
    (hba : entryLE b a) : entryKey a = entryKey b := by
  unfold entryLE at hab hba
  unfold entryKey
  rcases hab with h | ⟨h, hn⟩ <;> rcases hba with h' | ⟨h', hn'⟩
  · omega
  · omega
  · omega
  · exact Prod.ext h (pyStrLE_antisymm _ _ hn hn')

/-- `entryLE` together with distinct keys. -/
def entryLT (a b : MEntry) : Prop := entryLE a b ∧ entryKey a ≠ entryKey b

instance : IsAntisymm MEntry entryLT :=
  ⟨fun _ _ hab hba => absurd (entryKey_eq_of_le_le hab.1 hba.1) hab.2⟩

theorem sortEntries_perm (es : List MEntry) : (sortEntries es).Perm es :=
  List.perm_insertionSort entryLE es

/-- Any two enumeration orders of the same duplicate-free entries sort to the
same list. -/
theorem sortEntries_eq_of_perm {es1 es2 : List MEntry}
    (hperm : es1.Perm es2) (hnodup : (es1.map MEntry.name).Nodup) :
    sortEntries es1 = sortEntries es2 := by
  have hkey : ∀ {l : List MEntry}, (l.map MEntry.name).Nodup →
      l.Pairwise (fun a b => entryKey a ≠ entryKey b) := by
    intro l hl
    have := List.pairwise_map.mp hl
    exact this.imp (fun h hk => h (congrArg Prod.snd hk))
  have hs1 : (sortEntries es1).Pairwise entryLT := by
    refine ((List.sorted_insertionSort entryLE es1).and (hkey ?_)).imp fun h => h
    exact ((sortEntries_perm es1).map MEntry.name).nodup_iff.mpr hnodup
  have hs2 : (sortEntries es2).Pairwise entryLT := by
    refine ((List.sorted_insertionSort entryLE es2).and (hkey ?_)).imp fun h => h
    refine ((sortEntries_perm es2).map MEntry.name).nodup_iff.mpr ?_
    exact (hperm.map MEntry.name).nodup_iff.mp hnodup
  exact List.eq_of_perm_of_sorted
    (((sortEntries_perm es1).trans hperm).trans (sortEntries_perm es2).symm) hs1 hs2

/-! ## Shape of the hex digest -/

/-- The sixteen lowercase hexadecimal digits. -/
def hexDigitChars : List Char :=
  ['0', '1', '2', '3', '4', '5', '6', '7', '8', '9'] ++
    ['a', 'b', 'c', 'd', 'e', 'f']

theorem beBytes_length (k n : Nat) : (beBytes k n).length = k := by
  induction k generalizing n with
  | zero => rfl
  | succ k ih => simp [beBytes, ih]

theorem beBytes_lt (k n : Nat) : ∀ b ∈ beBytes k n, b < 256 := by
  induction k generalizing n with
  | zero => simp [beBytes]
  | succ k ih =>
    intro b hb
    simp only [beBytes, List.mem_append, List.mem_singleton] at hb
    rcases hb with hb | hb
    · exact ih _ b hb
    · omega

theorem shaRound_length (st : List Nat) (k w : Nat) :
    (shaRound st k w).length = 8 := rfl

theorem compressChunk_length (h0 chunk : List Nat) (h : h0.length = 8) :
    (compressChunk h0 chunk).length = 8 := by
  unfold compressChunk
  have : ∀ l : List (Nat × Nat), ∀ st : List Nat, st.length = 8 →
      (l.foldl (fun st kw => shaRound st kw.1 kw.2) st).length = 8 := by
    intro l
    induction l with
    | nil => intro st hst; exact hst
    | cons x xs ih => intro st hst; exact ih _ (shaRound_length st x.1 x.2)
  simp [List.length_zipWith, h, this _ h0 h]

theorem sha256bytes_length (msg : List Nat) : (sha256bytes msg).length = 32 := by
  unfold sha256bytes
  have hlen : ((chunksOf64 (padMessage msg)).foldl compressChunk initH).length = 8 := by
    have : ∀ cs : List (List Nat), ∀ h0 : List Nat, h0.length = 8 →
        (cs.foldl compressChunk h0).length = 8 := by
      intro cs
      induction cs with
      | nil => intro h0 h; exact h
      | cons c cs ih => intro h0 h; exact ih _ (compressChunk_length h0 c h)
    exact this _ initH rfl
  generalize hg : (chunksOf64 (padMessage msg)).foldl compressChunk initH = ws at hlen
  clear hg
  induction ws generalizing msg with
  | nil => simp at hlen
  | cons w ws ih =>
    match ws, hlen with
    | [a, b, c, d, e, f, g], _ => rfl

theorem sha256bytes_lt (msg : List Nat) : ∀ b ∈ sha256bytes msg, b < 256 := by
  unfold sha256bytes
  intro b hb
  generalize (chunksOf64 (padMessage msg)).foldl compressChunk initH = ws at hb
  induction ws with
  | nil => simp at hb
  | cons w ws ih =>
    simp only [List.foldr_cons, List.mem_append] at hb
    rcases hb with hb | hb
    · exact beBytes_lt 4 w b hb
    · exact ih hb

theorem hexChar_mem (n : Nat) (h : n < 16) : hexChar n ∈ hexDigitChars := by
  unfold hexChar hexDigitChars
  interval_cases n <;> simp

theorem foldr_byteHex_length (bs : List Nat) :
    (bs.foldr (fun b acc => byteHex b ++ acc) []).length = 2 * bs.length := by
  induction bs with
  | nil => rfl
  | cons b bs ih =>
    rw [List.foldr_cons, List.length_append, ih]
    simp only [byteHex, List.length_cons, List.length_nil]
    omega

theorem hexdigest_length (data : List Nat) : (hexdigest data).data.length = 64 := by
  show ((sha256bytes data).foldr (fun b acc => byteHex b ++ acc) []).length = 64
  rw [foldr_byteHex_length, sha256bytes_length]

theorem hexdigest_mem (data : List Nat) :
    ∀ c ∈ (hexdigest data).data, c ∈ hexDigitChars := by
  show ∀ c ∈ (sha256bytes data).foldr (fun b acc => byteHex b ++ acc) [], _
  have h := sha256bytes_lt data
  generalize sha256bytes data = bs at h
  induction bs with
  | nil => simp
  | cons b bs ih =>
    intro c hc
    simp only [List.foldr_cons, List.mem_append] at hc
    rcases hc with hc | hc
    · have hb : b < 256 := h b (by simp)
      simp only [byteHex, List.mem_cons, List.mem_singleton] at hc
      rcases hc with rfl | rfl | h'
      · exact hexChar_mem _ (by omega)
      · exact hexChar_mem _ (Nat.mod_lt _ (by omega))
      · exact absurd h' (by simp)
    · exact ih (fun x hx => h x (by simp [hx])) c hc

/-! ## Helper lemmas about recorded entries -/

theorem itemEntry_name (cfg : Config) (item : String) (e : FSEntry) (m : MEntry)
    (h : itemEntry cfg item e = some m) : m.name = item := by
  cases e <;> simp only [itemEntry] at h
  · split at h
    · simp at h
    · split at h
      · cases h; rfl
      · simp at h
  · split at h
    · cases h; rfl
    · simp at h
  · simp at h

theorem itemsEntries_mem (cfg : Config) (l : List (String × FSEntry)) :
    ∀ m ∈ itemsEntries cfg l,
      ∃ en, (m.name, en) ∈ l ∧ itemEntry cfg m.name en = some m := by
  induction l with
  | nil => simp [itemsEntries]
  | cons x rest ih =>
    obtain ⟨item, entry⟩ := x
    intro m hm
    simp only [itemsEntries] at hm
    split at hm
    · rename_i e0 he0
      rcases List.mem_cons.mp hm with rfl | hm'
      · exact ⟨entry, by simp [itemEntry_name cfg item entry m he0, he0]⟩
      · obtain ⟨en, h1, h2⟩ := ih m hm'
        exact ⟨en, List.mem_cons_of_mem _ h1, h2⟩
    · obtain ⟨en, h1, h2⟩ := ih m hm
      exact ⟨en, List.mem_cons_of_mem _ h1, h2⟩

theorem mem_itemsEntries_of_some (cfg : Config) (l : List (String × FSEntry))
    (item : String) (en : FSEntry) (m : MEntry)
    (hmem : (item, en) ∈ l) (hsome : itemEntry cfg item en = some m) :
    m ∈ itemsEntries cfg l := by
  induction l with
  | nil => simp at hmem
  | cons x rest ih =>
    rcases List.mem_cons.mp hmem with rfl | hmem'
    · simp only [itemsEntries, hsome]
      exact List.mem_cons_self _ _
    · obtain ⟨i0, e0⟩ := x
      simp only [itemsEntries]
      split
      · exact List.mem_cons_of_mem _ (ih hmem')
      · exact ih hmem'

/-- In a duplicate-free listing a name determines its entry. -/
theorem value_eq_of_nodup_keys {l : List (String × FSEntry)} {a : String}
    {b b' : FSEntry} (hnodup : (l.map Prod.fst).Nodup)
    (h1 : (a, b) ∈ l) (h2 : (a, b') ∈ l) : b = b' := by
  induction l with
  | nil => simp at h1
  | cons x rest ih =>
    have hx := List.nodup_cons.mp hnodup
    rcases List.mem_cons.mp h1 with hh1 | h1' <;>
      rcases List.mem_cons.mp h2 with hh2 | h2'
    · exact congrArg Prod.snd (hh1.trans hh2.symm)
    · have hmem : a ∈ rest.map Prod.fst := by
        simpa using List.mem_map_of_mem Prod.fst h2'
      rw [← hh1] at hx
      exact absurd hmem hx.1
    · have hmem : a ∈ rest.map Prod.fst := by
        simpa using List.mem_map_of_mem Prod.fst h1'
      rw [← hh2] at hx
      exact absurd hmem hx.1
    · exact ih hx.2 h1' h2'

theorem contentHash_ne_empty (digits : Nat) (data : List Nat)
    (h : 1 ≤ digits) : contentHash digits data ≠ "" := by
  intro hc
  have h2 : (hexdigest data).data.take digits = ([] : List Char) :=
    congrArg String.data hc
  have h3 := congrArg List.length h2
  rw [List.length_take, hexdigest_length] at h3
  simp only [List.length_nil] at h3
  omega

/-! ## Claim theorems (first batch) -/

/-- C2: the manifest bytes, and therefore the directory's content identifier,
are a function only of the set of recorded entries, not of the enumeration
order: entries are sorted ascending by `(size, name)` before encoding, so any
two enumeration orders of the same (distinct-name) entries yield identical
manifest bytes and identical identifiers. -/
theorem c2_manifest_order_invariant (digits : Nat) (es1 es2 : List MEntry)
    (hperm : es1.Perm es2) (hnodup : (es1.map MEntry.name).Nodup) :
    manifestBytes es1 = manifestBytes es2 ∧
    contentHash digits (manifestBytes es1) =
      contentHash digits (manifestBytes es2) := by
  have h := sortEntries_eq_of_perm hperm hnodup
  unfold manifestBytes
  rw [h]
  exact ⟨rfl, rfl⟩

theorem c2_manifest_order_invariant_witness :
    ([⟨"b", "h1", 2⟩, ⟨"a", "h2", 1⟩] : List MEntry).Perm
      [⟨"a", "h2", 1⟩, ⟨"b", "h1", 2⟩] ∧
    (([⟨"b", "h1", 2⟩, ⟨"a", "h2", 1⟩] : List MEntry).map MEntry.name).Nodup ∧
    (manifestBytes [⟨"b", "h1", 2⟩, ⟨"a", "h2", 1⟩] =
        manifestBytes [⟨"a", "h2", 1⟩, ⟨"b", "h1", 2⟩] ∧
      contentHash 20 (manifestBytes [⟨"b", "h1", 2⟩, ⟨"a", "h2", 1⟩]) =
        contentHash 20 (manifestBytes [⟨"a", "h2", 1⟩, ⟨"b", "h1", 2⟩])) :=
  ⟨by decide, by decide,
    c2_manifest_order_invariant 20 _ _ (by decide) (by decide)⟩

/-- C4: for any byte sequence and any configured hash-bit count in range, the
content identifier is the lowercase hexadecimal SHA-256 digest truncated to
`ceil(bits/4)` hex digits — `manifestHashDigits bits` is the least digit
count covering `bits` bits, it never exceeds 64, the identifier has exactly
that many characters, all of them lowercase hex digits, and identical bytes
always yield the identical identifier. -/
theorem c4_content_identifier (bits : Nat) (data : List Nat)
    (h1 : 1 ≤ bits) (h2 : bits ≤ 256) :
    contentHash (manifestHashDigits bits) data =
      ⟨(hexdigest data).data.take (manifestHashDigits bits)⟩ ∧
    bits ≤ 4 * manifestHashDigits bits ∧
    (∀ d', bits ≤ 4 * d' → manifestHashDigits bits ≤ d') ∧
    manifestHashDigits bits ≤ 64 ∧
    (contentHash (manifestHashDigits bits) data).data.length =
      manifestHashDigits bits ∧
    (∀ c ∈ (contentHash (manifestHashDigits bits) data).data,
      c ∈ hexDigitChars) ∧
    (∀ data' : List Nat, data' = data →
      contentHash (manifestHashDigits bits) data' =
        contentHash (manifestHashDigits bits) data) := by
  refine ⟨rfl, ?_, ?_, ?_, ?_, ?_, ?_⟩
  · unfold manifestHashDigits; omega
  · intro d' hd'; unfold manifestHashDigits; omega
  · unfold manifestHashDigits; omega
  · show ((hexdigest data).data.take _).length = _
    rw [List.length_take, hexdigest_length]
    unfold manifestHashDigits
    omega
  · intro c hc
    exact hexdigest_mem data c (List.mem_of_mem_take hc)
  · intro data' h
    rw [h]

theorem c4_content_identifier_witness :
    1 ≤ 80 ∧ 80 ≤ 256 ∧
    (contentHash (manifestHashDigits 80) [1, 2, 3] =
        ⟨(hexdigest [1, 2, 3]).data.take (manifestHashDigits 80)⟩ ∧
      80 ≤ 4 * manifestHashDigits 80 ∧
      (∀ d', 80 ≤ 4 * d' → manifestHashDigits 80 ≤ d') ∧
      manifestHashDigits 80 ≤ 64 ∧
      (contentHash (manifestHashDigits 80) [1, 2, 3]).data.length =
        manifestHashDigits 80 ∧
      (∀ c ∈ (contentHash (manifestHashDigits 80) [1, 2, 3]).data,
        c ∈ hexDigitChars) ∧
      (∀ data' : List Nat, data' = [1, 2, 3] →
        contentHash (manifestHashDigits 80) data' =
          contentHash (manifestHashDigits 80) [1, 2, 3])) :=
  ⟨by decide, by decide, c4_content_identifier 80 [1, 2, 3] (by decide) (by decide)⟩

/-- C5: a regular file whose name matches an exclusion, or whose size is 0,
is recorded in no manifest entry of its parent, and processing it calls no
`put_file` and leaves the state untouched. -/
theorem c5_excluded_or_empty_file_skipped (cfg : Config)
    (children : List (String × FSEntry)) (item : String) (c : List Nat)
    (st : BuildState)
    (hmem : (item, FSEntry.file c) ∈ children)
    (hnodup : (children.map Prod.fst).Nodup)
    (hskip : item ∈ cfg.local_exclusions ∨ c = []) :
    item ∉ (itemsEntries cfg children).map MEntry.name ∧
    uploadItem cfg item (.file c) st = (none, st) := by
  have hentry : itemEntry cfg item (.file c) = none := by
    unfold itemEntry
    rcases hskip with h | rfl
    · simp [h]
    · split
      · rfl
      · simp
  constructor
  · intro hname
    obtain ⟨m, hm, hmn⟩ := List.mem_map.mp hname
    obtain ⟨en, hmem', hsome⟩ := itemsEntries_mem cfg children m hm
    rw [hmn] at hmem' hsome
    have := value_eq_of_nodup_keys hnodup hmem' hmem
    rw [this] at hsome
    rw [hentry] at hsome
    exact Option.noConfusion hsome
  · unfold uploadItem
    rcases hskip with h | rfl
    · simp [h]
    · split
      · simp
      · simp

theorem c5_excluded_or_empty_file_skipped_witness :
    (".DS_Store", FSEntry.file [7]) ∈ [(".DS_Store", FSEntry.file [7])] ∧
    (([(".DS_Store", FSEntry.file [7])].map Prod.fst).Nodup) ∧
    (".DS_Store" ∈ ([".DS_Store"] : List String) ∨ ([7] : List Nat) = []) ∧
    (".DS_Store" ∉ (itemsEntries ⟨[".DS_Store"], 20, "cc", [], []⟩
        [(".DS_Store", FSEntry.file [7])]).map MEntry.name ∧
      uploadItem ⟨[".DS_Store"], 20, "cc", [], []⟩ ".DS_Store" (.file [7])
        ⟨[], [], []⟩ = (none, ⟨[], [], []⟩)) :=
  ⟨by simp, by decide, by decide,
    c5_excluded_or_empty_file_skipped ⟨[".DS_Store"], 20, "cc", [], []⟩
      [(".DS_Store", FSEntry.file [7])] ".DS_Store" [7] ⟨[], [], []⟩
      (by simp) (by decide) (by decide)⟩

/-- C6: every subdirectory encountered during a build — including one whose
manifest is empty after exclusions and skips — is recorded in its parent's
entries with its manifest identifier and size 0, and an empty subdirectory's
identifier is the identifier of the empty manifest encoding `{}`. -/
theorem c6_directory_always_recorded (cfg : Config)
    (children : List (String × FSEntry)) (item : String)
    (cs : List (String × FSEntry))
    (hmem : (item, FSEntry.dir cs) ∈ children)
    (hdigits : 1 ≤ cfg.manifest_hash_digits) :
    (⟨item, dirHash cfg cs, 0⟩ : MEntry) ∈ itemsEntries cfg children ∧
    (cs = [] → dirHash cfg cs =
      contentHash cfg.manifest_hash_digits (latin1 ['{', '}'])) := by
  constructor
  · refine mem_itemsEntries_of_some cfg children item (.dir cs) _ hmem ?_
    unfold itemEntry
    have hne : dirHash cfg cs ≠ "" :=
      contentHash_ne_empty _ _ hdigits
    simp only [dirHash, manifestBytes] at hne ⊢
    simp [hne]
  · rintro rfl
    rfl

theorem c6_directory_always_recorded_witness :
    ("sub", FSEntry.dir []) ∈ [("sub", FSEntry.dir [])] ∧
    1 ≤ (20 : Nat) ∧
    ((⟨"sub", dirHash ⟨[], 20, "cc", [], []⟩ [], 0⟩ : MEntry) ∈
        itemsEntries ⟨[], 20, "cc", [], []⟩ [("sub", FSEntry.dir [])] ∧
      (([] : List (String × FSEntry)) = [] → dirHash ⟨[], 20, "cc", [], []⟩ [] =
        contentHash 20 (latin1 ['{', '}']))) :=
  ⟨by simp, by decide,
    c6_directory_always_recorded ⟨[], 20, "cc", [], []⟩
      [("sub", FSEntry.dir [])] "sub" [] (by simp) (by decide)⟩

/-- C7: an entry that is neither a regular file nor a directory is skipped
with a warning naming it: it contributes no manifest entry, issues no
`put_file` and changes nothing but the warning log, and the build of a
directory containing it still completes and returns the directory's manifest
identifier. -/
theorem c7_link_skipped (cfg : Config) (children : List (String × FSEntry))
    (item : String) (st : BuildState)
    (hmem : (item, FSEntry.link) ∈ children)
    (hnodup : (children.map Prod.fst).Nodup) :
    uploadItem cfg item .link st =
      (none, { st with warnings := st.warnings ++ [item] }) ∧
    item ∉ (itemsEntries cfg children).map MEntry.name ∧
    (upload_snapshot cfg (.dir children) st).1 = dirHash cfg children := by
  refine ⟨rfl, ?_, upload_snapshot_fst cfg children st⟩
  intro hname
  obtain ⟨m, hm, hmn⟩ := List.mem_map.mp hname
  obtain ⟨en, hmem', hsome⟩ := itemsEntries_mem cfg children m hm
  rw [hmn] at hmem' hsome
  have := value_eq_of_nodup_keys hnodup hmem' hmem
  rw [this] at hsome
  exact Option.noConfusion hsome

theorem c7_link_skipped_witness :
    ("lnk", FSEntry.link) ∈ [("lnk", FSEntry.link)] ∧
    (([("lnk", FSEntry.link)].map Prod.fst).Nodup) ∧
    (uploadItem ⟨[], 20, "cc", [], []⟩ "lnk" .link ⟨[], [], []⟩ =
        (none, { listing := [], puts := [], warnings := ["lnk"] }) ∧
      "lnk" ∉ (itemsEntries ⟨[], 20, "cc", [], []⟩
        [("lnk", FSEntry.link)]).map MEntry.name ∧
      (upload_snapshot ⟨[], 20, "cc", [], []⟩ (.dir [("lnk", FSEntry.link)])
        ⟨[], [], []⟩).1 = dirHash ⟨[], 20, "cc", [], []⟩ [("lnk", FSEntry.link)]) :=
  ⟨by simp, by decide,
    c7_link_skipped ⟨[], 20, "cc", [], []⟩ [("lnk", FSEntry.link)] "lnk"
      ⟨[], [], []⟩ (by simp) (by decide)⟩

/-- C9: `upload_snapshot` always returns a manifest identifier for every
directory it is invoked on — the returned value is the content identifier of
the encoded (possibly empty) manifest, never a missing value; in particular
an empty root yields the identifier of the empty encoding `{}`. -/
theorem c9_upload_always_returns_identifier (cfg : Config)
    (children : List (String × FSEntry)) (st : BuildState) :
    (upload_snapshot cfg (.dir children) st).1 =
      contentHash cfg.manifest_hash_digits
        (manifestBytes (itemsEntries cfg children)) ∧
    (upload_snapshot cfg (.dir []) st).1 =
      contentHash cfg.manifest_hash_digits (latin1 ['{', '}']) :=
  ⟨upload_snapshot_fst cfg children st, upload_snapshot_fst cfg [] st⟩

/-! ## Hashes touched by a build, state growth, and idempotence -/

mutual

/-- All identifiers the build computes while processing one item. -/
def itemHashes (cfg : Config) (item : String) : FSEntry → List String
  | .dir cs => itemsHashes cfg cs ++ [dirHash cfg cs]
  | .file content =>
      if item ∈ cfg.local_exclusions then []
      else if content.length > 0 then
        [contentHash cfg.manifest_hash_digits content]
      else []
  | .link => []

/-- All identifiers the build computes while processing a listing. -/
def itemsHashes (cfg : Config) : List (String × FSEntry) → List String
  | [] => []
  | (item, e) :: rest => itemHashes cfg item e ++ itemsHashes cfg rest

end

/-- All identifiers computed while snapshotting a directory. -/
def dirHashes (cfg : Config) (children : List (String × FSEntry)) : List String :=
  itemsHashes cfg children ++ [dirHash cfg children]

/-- An identifier known to the state: in the listing or already uploaded. -/
def covered (st : BuildState) (h : String) : Prop :=
  h ∈ st.listing ∨ h ∈ st.puts.map PutCall.hash

/-- One build state extends another: the listing, the put log and the warning
log have only grown, and every new listing entry was put. -/
def StateExtends (st' st : BuildState) : Prop :=
  ∃ dl dp dw, st' = ⟨st.listing ++ dl, st.puts ++ dp, st.warnings ++ dw⟩ ∧
    ∀ h ∈ dl, h ∈ dp.map PutCall.hash

theorem StateExtends.refl (st : BuildState) : StateExtends st st :=
  ⟨[], [], [], by simp, by simp⟩

theorem StateExtends.trans {st3 st2 st1 : BuildState}
    (h32 : StateExtends st3 st2) (h21 : StateExtends st2 st1) :
    StateExtends st3 st1 := by
  obtain ⟨dl, dp, dw, rfl, hsub⟩ := h32
  obtain ⟨dl', dp', dw', rfl, hsub'⟩ := h21
  refine ⟨dl' ++ dl, dp' ++ dp, dw' ++ dw, by simp, ?_⟩
  intro h hh
  rcases List.mem_append.mp hh with hh | hh
  · rcases List.mem_map.mp (hsub' h hh) with ⟨p, hp, hph⟩
    exact List.mem_map.mpr ⟨p, List.mem_append_left _ hp, hph⟩
  · rcases List.mem_map.mp (hsub h hh) with ⟨p, hp, hph⟩
    exact List.mem_map.mpr ⟨p, List.mem_append_right _ hp, hph⟩

theorem covered_mono {st' st : BuildState} (hext : StateExtends st' st)
    {h : String} (hc : covered st h) : covered st' h := by
  obtain ⟨dl, dp, dw, rfl, -⟩ := hext
  rcases hc with hc | hc
  · exact Or.inl (by simp [hc])
  · rcases List.mem_map.mp hc with ⟨p, hp, hph⟩
    exact Or.inr (List.mem_map.mpr ⟨p, by simp [hp], hph⟩)

/-- After `finishManifest` the manifest identifier is covered, and the state
has only grown. -/
theorem finishManifest_covered (cfg : Config) (ms : List MEntry × BuildState) :
    StateExtends (finishManifest cfg ms).2 ms.2 ∧
    covered (finishManifest cfg ms).2 ((finishManifest cfg ms).1) := by
  unfold finishManifest
  dsimp only
  split
  · rename_i hex
    exact ⟨StateExtends.refl _, Or.inl hex⟩
  · refine ⟨⟨[], [⟨contentHash cfg.manifest_hash_digits
        (latin1 (manifestJsonChars (sortEntries ms.1))),
        latin1 (manifestJsonChars (sortEntries ms.1)),
        "application/json; charset=utf-8", cfg.cache_control, true⟩], [],
      by simp [put_file], by simp⟩, Or.inr ?_⟩
    simp [put_file]

/-- Growth and hash coverage of the build, by mutual induction on the tree. -/
theorem build_covered (cfg : Config) :
    (∀ e item st, StateExtends (uploadItem cfg item e st).2 st ∧
      ∀ h ∈ itemHashes cfg item e, covered (uploadItem cfg item e st).2 h) ∧
    (∀ l st, StateExtends (uploadItems cfg l st).2 st ∧
      ∀ h ∈ itemsHashes cfg l, covered (uploadItems cfg l st).2 h) := by
  have hfile : ∀ c item st, StateExtends (uploadItem cfg item (.file c) st).2 st ∧
      ∀ h ∈ itemHashes cfg item (.file c),
        covered (uploadItem cfg item (.file c) st).2 h := by
    intro c item st
    simp only [uploadItem, itemHashes]
    split
    · exact ⟨StateExtends.refl st, by simp⟩
    · split
      · rename_i hlen
        simp only [if_pos hlen]
        split
        · rename_i hex
          exact ⟨StateExtends.refl st, by
            intro h hh
            simp only [List.mem_singleton] at hh
            exact Or.inl (hh ▸ hex)⟩
        · refine ⟨⟨[contentHash cfg.manifest_hash_digits c],
            [⟨contentHash cfg.manifest_hash_digits c, c,
              lookupContentType cfg.content_types (extOf item),
              cfg.cache_control, decide (extOf item ∈ cfg.gzip_types)⟩], [],
            by simp [put_file], by simp⟩, ?_⟩
          intro h hh
          simp only [List.mem_singleton] at hh
          subst hh
          exact Or.inl (by simp [put_file])
      · rename_i hlen
        simp only [if_neg hlen]
        exact ⟨StateExtends.refl st, by simp [hlen]⟩
  have hlink : ∀ item st, StateExtends (uploadItem cfg item .link st).2 st ∧
      ∀ h ∈ itemHashes cfg item .link,
        covered (uploadItem cfg item .link st).2 h := by
    intro item st
    exact ⟨⟨[], [], [item], by simp [uploadItem], by simp⟩, by simp [itemHashes]⟩
  have hdir : ∀ cs,
      (∀ st, StateExtends (uploadItems cfg cs st).2 st ∧
        ∀ h ∈ itemsHashes cfg cs, covered (uploadItems cfg cs st).2 h) →
      ∀ item st, StateExtends (uploadItem cfg item (.dir cs) st).2 st ∧
        ∀ h ∈ itemHashes cfg item (.dir cs),
          covered (uploadItem cfg item (.dir cs) st).2 h := by
    intro cs hq item st
    obtain ⟨hq1, hq2⟩ := hq st
    have hfin := finishManifest_covered cfg (uploadItems cfg cs st)
    have hext : StateExtends (finishManifest cfg (uploadItems cfg cs st)).2 st :=
      hfin.1.trans hq1
    have hsnd : (uploadItem cfg item (.dir cs) st).2 =
        (finishManifest cfg (uploadItems cfg cs st)).2 := by
      simp only [uploadItem]
    refine ⟨hsnd ▸ hext, ?_⟩
    intro h hh
    simp only [itemHashes, List.mem_append, List.mem_singleton] at hh
    rw [hsnd]
    rcases hh with hh | rfl
    · exact covered_mono hfin.1 (hq2 h hh)
    · have : (finishManifest cfg (uploadItems cfg cs st)).1 = dirHash cfg cs := by
        rw [finishManifest_fst, uploadItems_fst]; rfl
      exact this ▸ hfin.2
  have hnil : ∀ st, StateExtends (uploadItems cfg [] st).2 st ∧
      ∀ h ∈ itemsHashes cfg [], covered (uploadItems cfg [] st).2 h := by
    intro st
    exact ⟨StateExtends.refl st, by simp [itemsHashes, uploadItems]⟩
  have hcons : ∀ n e rest,
      (∀ item st, StateExtends (uploadItem cfg item e st).2 st ∧
        ∀ h ∈ itemHashes cfg item e, covered (uploadItem cfg item e st).2 h) →
      (∀ st, StateExtends (uploadItems cfg rest st).2 st ∧
        ∀ h ∈ itemsHashes cfg rest, covered (uploadItems cfg rest st).2 h) →
      ∀ st, StateExtends (uploadItems cfg ((n, e) :: rest) st).2 st ∧
        ∀ h ∈ itemsHashes cfg ((n, e) :: rest),
          covered (uploadItems cfg ((n, e) :: rest) st).2 h := by
    intro n e rest hp hq st
    obtain ⟨hp1, hp2⟩ := hp n st
    obtain ⟨hq1, hq2⟩ := hq (uploadItem cfg n e st).2
    have hsnd : (uploadItems cfg ((n, e) :: rest) st).2 =
        (uploadItems cfg rest (uploadItem cfg n e st).2).2 := by
      simp only [uploadItems]
    refine ⟨hsnd ▸ (hq1.trans hp1), ?_⟩
    intro h hh
    simp only [itemsHashes, List.mem_append] at hh
    rw [hsnd]
    rcases hh with hh | hh
    · exact covered_mono hq1 (hp2 h hh)
    · exact hq2 h hh
  exact ⟨fsRecAll _ _ hfile hlink hdir hnil hcons,
         fsRecListAll _ _ hfile hlink hdir hnil hcons⟩

/-- Growth and hash coverage of a whole directory snapshot. -/
theorem upload_covered (cfg : Config) (children : List (String × FSEntry))
    (st : BuildState) :
    StateExtends (upload_snapshot cfg (.dir children) st).2 st ∧
    ∀ h ∈ dirHashes cfg children,
      covered (upload_snapshot cfg (.dir children) st).2 h := by
  have hitems := (build_covered cfg).2 children st
  have hfin := finishManifest_covered cfg (uploadItems cfg children st)
  have hsnd : (upload_snapshot cfg (.dir children) st).2 =
      (finishManifest cfg (uploadItems cfg children st)).2 := rfl
  refine ⟨hsnd ▸ (hfin.1.trans hitems.1), ?_⟩
  intro h hh
  simp only [dirHashes, List.mem_append, List.mem_singleton] at hh
  rw [hsnd]
  rcases hh with hh | rfl
  · exact covered_mono hfin.1 (hitems.2 h hh)
  · have : (finishManifest cfg (uploadItems cfg children st)).1 =
        dirHash cfg children := by
      rw [finishManifest_fst, uploadItems_fst]; rfl
    exact this ▸ hfin.2

/-- When every hash of the walk is already listed, the walk issues no put and
appends nothing to the listing. -/
theorem build_noop (cfg : Config) :
    (∀ e item st, (∀ h ∈ itemHashes cfg item e, h ∈ st.listing) →
      (uploadItem cfg item e st).2.puts = st.puts ∧
      (uploadItem cfg item e st).2.listing = st.listing) ∧
    (∀ l st, (∀ h ∈ itemsHashes cfg l, h ∈ st.listing) →
      (uploadItems cfg l st).2.puts = st.puts ∧
      (uploadItems cfg l st).2.listing = st.listing) := by
  have hfile : ∀ c item st, (∀ h ∈ itemHashes cfg item (.file c), h ∈ st.listing) →
      (uploadItem cfg item (.file c) st).2.puts = st.puts ∧
      (uploadItem cfg item (.file c) st).2.listing = st.listing := by
    intro c item st hyp
    simp only [uploadItem]
    split
    · exact ⟨rfl, rfl⟩
    · rename_i hexcl
      split
      · rename_i hlen
        have hmem : contentHash cfg.manifest_hash_digits c ∈ st.listing := by
          apply hyp
          simp [itemHashes, hexcl, hlen]
        split
        · exact ⟨rfl, rfl⟩
        · rename_i hnex
          exact absurd hmem hnex
      · exact ⟨rfl, rfl⟩
  have hlink : ∀ item st, (∀ h ∈ itemHashes cfg item .link, h ∈ st.listing) →
      (uploadItem cfg item .link st).2.puts = st.puts ∧
      (uploadItem cfg item .link st).2.listing = st.listing := by
    intro item st _
    exact ⟨rfl, rfl⟩
  have hdir : ∀ cs,
      (∀ st, (∀ h ∈ itemsHashes cfg cs, h ∈ st.listing) →
        (uploadItems cfg cs st).2.puts = st.puts ∧
        (uploadItems cfg cs st).2.listing = st.listing) →
      ∀ item st, (∀ h ∈ itemHashes cfg item (.dir cs), h ∈ st.listing) →
      (uploadItem cfg item (.dir cs) st).2.puts = st.puts ∧
      (uploadItem cfg item (.dir cs) st).2.listing = st.listing := by
    intro cs hq item st hyp
    have hsub : ∀ h ∈ itemsHashes cfg cs, h ∈ st.listing := by
      intro h hh; exact hyp h (by simp [itemHashes, hh])
    obtain ⟨hqp, hql⟩ := hq st hsub
    have hdh : dirHash cfg cs ∈ st.listing :=
      hyp _ (by simp [itemHashes])
    have hsnd : (uploadItem cfg item (.dir cs) st).2 =
        (finishManifest cfg (uploadItems cfg cs st)).2 := rfl
    rw [hsnd]
    unfold finishManifest
    dsimp only
    rw [uploadItems_fst]
    have hex : file_exists (uploadItems cfg cs st).2 (dirHash cfg cs) := by
      unfold file_exists
      rw [hql]
      exact hdh
    split
    · exact ⟨hqp, hql⟩
    · rename_i hnex
      exact absurd hex hnex
  have hnil : ∀ st, (∀ h ∈ itemsHashes cfg [], h ∈ st.listing) →
      (uploadItems cfg [] st).2.puts = st.puts ∧
      (uploadItems cfg [] st).2.listing = st.listing := by
    intro st _; exact ⟨rfl, rfl⟩
  have hcons : ∀ n e rest,
      (∀ item st, (∀ h ∈ itemHashes cfg item e, h ∈ st.listing) →
        (uploadItem cfg item e st).2.puts = st.puts ∧
        (uploadItem cfg item e st).2.listing = st.listing) →
      (∀ st, (∀ h ∈ itemsHashes cfg rest, h ∈ st.listing) →
        (uploadItems cfg rest st).2.puts = st.puts ∧
        (uploadItems cfg rest st).2.listing = st.listing) →
      ∀ st, (∀ h ∈ itemsHashes cfg ((n, e) :: rest), h ∈ st.listing) →
      (uploadItems cfg ((n, e) :: rest) st).2.puts = st.puts ∧
      (uploadItems cfg ((n, e) :: rest) st).2.listing = st.listing := by
    intro n e rest hp hq st hyp
    have hp' := hp n st (fun h hh => hyp h (by simp [itemsHashes, hh]))
    have hq' := hq (uploadItem cfg n e st).2 (fun h hh => by
      rw [hp'.2]
      exact hyp h (by simp [itemsHashes, hh]))
    have hsnd : (uploadItems cfg ((n, e) :: rest) st).2 =
        (uploadItems cfg rest (uploadItem cfg n e st).2).2 := rfl
    rw [hsnd, hq'.1, hq'.2, hp'.1, hp'.2]
    exact ⟨rfl, rfl⟩
  exact ⟨fsRecAll _ _ hfile hlink hdir hnil hcons,
         fsRecListAll _ _ hfile hlink hdir hnil hcons⟩

/-- C3: rebuilding an unchanged tree with the listing refreshed to contain
everything the first run uploaded (and everything listed before it) returns
the same root identifier and performs zero `put_file` calls. -/
theorem c3_rebuild_same_id_zero_puts (cfg : Config)
    (children : List (String × FSEntry)) (L0 L2 : List String)
    (hL2 : ∀ h, (h ∈ L0 ∨ h ∈ ((upload_snapshot cfg (.dir children)
        ⟨L0, [], []⟩).2.puts.map PutCall.hash)) → h ∈ L2) :
    (upload_snapshot cfg (.dir children) ⟨L2, [], []⟩).1 =
      (upload_snapshot cfg (.dir children) ⟨L0, [], []⟩).1 ∧
    (upload_snapshot cfg (.dir children) ⟨L2, [], []⟩).2.puts = [] := by
  constructor
  · rw [upload_snapshot_fst, upload_snapshot_fst]
  · have hcov := upload_covered cfg children ⟨L0, [], []⟩
    have hall : ∀ h ∈ dirHashes cfg children, h ∈ L2 := by
      intro h hh
      have hc := hcov.2 h hh
      obtain ⟨dl, dp, dw, heq, hsub⟩ := hcov.1
      unfold covered at hc
      rw [heq] at hc
      apply hL2
      rcases hc with hc | hc
      · rcases List.mem_append.mp hc with hc | hc
        · exact Or.inl hc
        · refine Or.inr ?_
          rw [heq]
          simpa using hsub h hc
      · refine Or.inr ?_
        rw [heq]
        simpa using hc
    have hnoop := (build_noop cfg).2 children ⟨L2, [], []⟩
      (fun h hh => hall h (by simp [dirHashes, hh]))
    have hsnd : (upload_snapshot cfg (.dir children) ⟨L2, [], []⟩).2 =
        (finishManifest cfg (uploadItems cfg children ⟨L2, [], []⟩)).2 := rfl
    rw [hsnd]
    unfold finishManifest
    dsimp only
    rw [uploadItems_fst]
    have hex : file_exists (uploadItems cfg children ⟨L2, [], []⟩).2
        (contentHash cfg.manifest_hash_digits
          (latin1 (manifestJsonChars (sortEntries (itemsEntries cfg children))))) := by
      unfold file_exists
      rw [hnoop.2]
      exact hall _ (by simp [dirHashes, dirHash, manifestBytes])
    rw [if_pos hex]
    exact hnoop.1

/-- A small sample configuration for concrete runs (exclusion list, 80-bit
identifiers, a cache-control string, no content-type or gzip entries). -/
def sampleCfg : Config := ⟨[".DS_Store"], 20, "cc", [], []⟩

theorem c3_rebuild_same_id_zero_puts_witness :
    (∀ h : String, (h ∈ ([] : List String) ∨
        h ∈ ((upload_snapshot sampleCfg (.dir [("x.bin", FSEntry.file [1])])
          ⟨[], [], []⟩).2.puts.map PutCall.hash)) →
        h ∈ ((upload_snapshot sampleCfg (.dir [("x.bin", FSEntry.file [1])])
          ⟨[], [], []⟩).2.puts.map PutCall.hash)) ∧
    ((upload_snapshot sampleCfg (.dir [("x.bin", FSEntry.file [1])])
        ⟨(upload_snapshot sampleCfg (.dir [("x.bin", FSEntry.file [1])])
            ⟨[], [], []⟩).2.puts.map PutCall.hash, [], []⟩).1 =
      (upload_snapshot sampleCfg (.dir [("x.bin", FSEntry.file [1])])
        ⟨[], [], []⟩).1 ∧
     (upload_snapshot sampleCfg (.dir [("x.bin", FSEntry.file [1])])
        ⟨(upload_snapshot sampleCfg (.dir [("x.bin", FSEntry.file [1])])
            ⟨[], [], []⟩).2.puts.map PutCall.hash, [], []⟩).2.puts = []) :=
  ⟨fun _ hh => hh.resolve_left (by simp),
    c3_rebuild_same_id_zero_puts sampleCfg [("x.bin", FSEntry.file [1])] [] _
      (fun _ hh => hh.resolve_left (by simp))⟩

/-- C10: deduplication inside one build is asymmetric.  A file blob's hash is
appended to the listing after its upload, so a second file with identical
content triggers no second `put_file` (exactly one put carries that blob's
identifier); an uploaded manifest's hash is never appended, so two identical
(empty) subdirectories each trigger a separate `put_file` of the same manifest
identifier (that identifier is put exactly twice). -/
theorem c10_dedup_asymmetry (cfg : Config) (a b : String) (c : List Nat)
    (_hab : a ≠ b)
    (ha : a ∉ cfg.local_exclusions) (hb : b ∉ cfg.local_exclusions)
    (hc : c ≠ []) (hdigits : 1 ≤ cfg.manifest_hash_digits)
    (hcol1 : dirHash cfg [(a, .file c), (b, .file c)] ≠
      contentHash cfg.manifest_hash_digits c)
    (hcol2 : dirHash cfg [(a, .dir []), (b, .dir [])] ≠ dirHash cfg []) :
    (((upload_snapshot cfg (.dir [(a, .file c), (b, .file c)])
        ⟨[], [], []⟩).2.puts.map PutCall.hash).count
      (contentHash cfg.manifest_hash_digits c) = 1) ∧
    (((upload_snapshot cfg (.dir [(a, .dir []), (b, .dir [])])
        ⟨[], [], []⟩).2.puts.map PutCall.hash).count (dirHash cfg []) = 2) := by
  have hlen : 0 < c.length := List.length_pos.mpr hc
  constructor
  · have hcol1' : contentHash cfg.manifest_hash_digits
        (latin1 (manifestJsonChars (sortEntries
          [⟨a, contentHash cfg.manifest_hash_digits c, c.length⟩,
           ⟨b, contentHash cfg.manifest_hash_digits c, c.length⟩]))) ≠
        contentHash cfg.manifest_hash_digits c := by
      simpa [dirHash, manifestBytes, itemsEntries, itemEntry, ha, hb, hlen] using hcol1
    simp [upload_snapshot, uploadItems, uploadItem, finishManifest, file_exists,
      put_file, ha, hb, hlen, hcol1', Ne.symm hcol1', List.count_cons]
  · have hne : contentHash cfg.manifest_hash_digits
        (latin1 (manifestJsonChars (sortEntries []))) ≠ "" :=
      contentHash_ne_empty _ _ hdigits
    have hcol2' : contentHash cfg.manifest_hash_digits
        (latin1 (manifestJsonChars (sortEntries
          [⟨a, contentHash cfg.manifest_hash_digits
              (latin1 (manifestJsonChars (sortEntries []))), 0⟩,
           ⟨b, contentHash cfg.manifest_hash_digits
              (latin1 (manifestJsonChars (sortEntries []))), 0⟩]))) ≠
        contentHash cfg.manifest_hash_digits
          (latin1 (manifestJsonChars (sortEntries []))) := by
      simpa [dirHash, manifestBytes, itemsEntries, itemEntry, hne] using hcol2
    simp [upload_snapshot, uploadItems, uploadItem, finishManifest, file_exists,
      put_file, hne, hcol2', Ne.symm hcol2', List.count_cons, dirHash,
      manifestBytes, itemsEntries, itemEntry]

theorem c10_dedup_asymmetry_witness :
    ("a" : String) ≠ "b" ∧
    "a" ∉ sampleCfg.local_exclusions ∧
    "b" ∉ sampleCfg.local_exclusions ∧
    ([1] : List Nat) ≠ [] ∧
    1 ≤ sampleCfg.manifest_hash_digits ∧
    dirHash sampleCfg [("a", .file [1]), ("b", .file [1])] ≠
      contentHash sampleCfg.manifest_hash_digits [1] ∧
    dirHash sampleCfg [("a", .dir []), ("b", .dir [])] ≠ dirHash sampleCfg [] ∧
    ((((upload_snapshot sampleCfg (.dir [("a", .file [1]), ("b", .file [1])])
        ⟨[], [], []⟩).2.puts.map PutCall.hash).count
      (contentHash sampleCfg.manifest_hash_digits [1]) = 1) ∧
     (((upload_snapshot sampleCfg (.dir [("a", .dir []), ("b", .dir [])])
        ⟨[], [], []⟩).2.puts.map PutCall.hash).count (dirHash sampleCfg []) = 2)) := by
  have h6 : dirHash sampleCfg [("a", .file [1]), ("b", .file [1])] ≠
      contentHash sampleCfg.manifest_hash_digits [1] := by decide
  have h7 : dirHash sampleCfg [("a", .dir []), ("b", .dir [])] ≠
      dirHash sampleCfg [] := by decide
  exact ⟨by decide, by decide, by decide, by decide, by decide, h6, h7,
    c10_dedup_asymmetry sampleCfg "a" "b" [1] (by decide) (by decide) (by decide)
      (by decide) (by decide) h6 h7⟩

/-! ## JSON values and the reader side

`list_snapshot` and `download_snapshot` read manifests back through
`json.loads`.  `JValue` is the space of values the loads of interest produce;
the parser below models `json.loads` on the ASCII/integer-numeral fragment of
JSON, which covers every manifest this tool writes. -/

inductive JValue where
  | str (s : String)
  | num (n : Int)
  | jbool (b : Bool)
  | jnull
  | arr (elems : List JValue)
  | obj (fields : List (String × JValue))

/-- JSON whitespace accepted between tokens. -/
def isJsonWs (c : Char) : Bool := c = ' ' ∨ c = '\t' ∨ c = '\n' ∨ c = '\r'

def skipWs (cs : List Char) : List Char := cs.dropWhile isJsonWs

def hexVal (c : Char) : Option Nat :=
  if 48 ≤ c.toNat ∧ c.toNat ≤ 57 then some (c.toNat - 48)
  else if 97 ≤ c.toNat ∧ c.toNat ≤ 102 then some (c.toNat - 87)
  else if 65 ≤ c.toNat ∧ c.toNat ≤ 70 then some (c.toNat - 55)
  else none

def isDigit (c : Char) : Bool := 48 ≤ c.toNat ∧ c.toNat ≤ 57

def natOfDigits (cs : List Char) : Nat :=
  cs.foldl (fun acc c => acc * 10 + (c.toNat - 48)) 0

mutual

/-- Parse a JSON string body after the opening quote: plain characters, the
short escapes, and `\uXXXX` (with surrogate pairs recombined; a lone
surrogate — which Lean's `Char` cannot hold — is rejected).  Python's strict
decoder likewise rejects raw control characters. -/
def parseStringBody : List Char → Option (List Char × List Char)
  | [] => none
  | c :: rest =>
      if c = '"' then some ([], rest)
      else if c = '\\' then parseEscapeSeq rest
      else if c.toNat < 32 then none
      else
        match parseStringBody rest with
        | some (content, r) => some (c :: content, r)
        | none => none

/-- The tail of a backslash escape inside a JSON string. -/
def parseEscapeSeq : List Char → Option (List Char × List Char)
  | 'u' :: a :: b :: cc :: d :: rest1 =>
      match hexVal a, hexVal b, hexVal cc, hexVal d with
      | some x, some y, some z, some w =>
          let n := ((x * 16 + y) * 16 + z) * 16 + w
          if 55296 ≤ n ∧ n < 56320 then
            match rest1 with
            | '\\' :: 'u' :: a2 :: b2 :: c2 :: d2 :: rest2 =>
                match hexVal a2, hexVal b2, hexVal c2, hexVal d2 with
                | some x2, some y2, some z2, some w2 =>
                    let m := ((x2 * 16 + y2) * 16 + z2) * 16 + w2
                    if 56320 ≤ m ∧ m < 57344 then
                      match parseStringBody rest2 with
                      | some (content, r) =>
                          some (Char.ofNat
                            (65536 + (n - 55296) * 1024 + (m - 56320)) ::
                              content, r)
                      | none => none
                    else none
                | _, _, _, _ => none
            | _ => none
          else if 56320 ≤ n ∧ n < 57344 then none
          else
            match parseStringBody rest1 with
            | some (content, r) => some (Char.ofNat n :: content, r)
            | none => none
      | _, _, _, _ => none
  | e :: rest1 =>
      let esc : Option Char :=
        if e = '"' then some '"' else if e = '\\' then some '\\'
        else if e = '/' then some '/' else if e = 'b' then some (Char.ofNat 8)
        else if e = 'f' then some (Char.ofNat 12) else if e = 'n' then some '\n'
        else if e = 'r' then some '\r' else if e = 't' then some '\t' else none
      match esc, parseStringBody rest1 with
      | some ec, some (content, r) => some (ec :: content, r)
      | _, _ => none
  | [] => none

end

/-- Does a float continuation follow (outside the modelled fragment)? -/
def floatFollows : List Char → Bool
  | c :: _ => c = '.' ∨ c = 'e' ∨ c = 'E'
  | [] => false

/-- The JSON integer numeral grammar `-?(0|[1-9][0-9]*)` at the head of the
input (no leading zeros). -/
def parseJsonNat : List Char → Option (Nat × List Char)
  | c :: t =>
      if c = '0' then
        if floatFollows t then none else some (0, t)
      else if isDigit c then
        if floatFollows (t.dropWhile isDigit) then none
        else some (natOfDigits (c :: t.takeWhile isDigit), t.dropWhile isDigit)
      else none
  | [] => none

def parseJsonInt : List Char → Option (Int × List Char)
  | [] => none
  | c :: t =>
      if c = '-' then
        match parseJsonNat t with
        | some (n, r) => some (-(n : Int), r)
        | none => none
      else
        match parseJsonNat (c :: t) with
        | some (n, r) => some ((n : Int), r)
        | none => none

/-- Python-dict insertion for object members: a repeated key keeps its first
position but takes the later value. -/
def objInsert (fields : List (String × JValue)) (k : String) (v : JValue) :
    List (String × JValue) :=
  if fields.any (fun f => f.1 = k) then
    fields.map (fun f => if f.1 = k then (k, v) else f)
  else fields ++ [(k, v)]

mutual

/-- One JSON value at the head of the input (fueled recursion; the fuel is
an upper bound on nesting depth, one unit per consumed bracket). -/
def parseValue : Nat → List Char → Option (JValue × List Char)
  | 0, _ => none
  | fuel + 1, cs =>
      match skipWs cs with
      | [] => none
      | c :: rest =>
          if c = '"' then
            match parseStringBody rest with
            | some (content, r) => some (.str ⟨content⟩, r)
            | none => none
          else if c = '{' then parseMembers fuel [] rest true
          else if c = '[' then parseElems fuel [] rest true
          else if c = 't' then
            match rest with
            | 'r' :: 'u' :: 'e' :: r => some (.jbool true, r)
            | _ => none
          else if c = 'f' then
            match rest with
            | 'a' :: 'l' :: 's' :: 'e' :: r => some (.jbool false, r)
            | _ => none
          else if c = 'n' then
            match rest with
            | 'u' :: 'l' :: 'l' :: r => some (.jnull, r)
            | _ => none
          else
            match parseJsonInt (c :: rest) with
            | some (n, r) => some (.num n, r)
            | none => none

/-- The members of an object after `{` (or after a separating comma when
`first` is false). -/
def parseMembers : Nat → List (String × JValue) → List Char → Bool →
    Option (JValue × List Char)
  | 0, _, _, _ => none
  | fuel + 1, acc, cs, first =>
      match skipWs cs with
      | [] => none
      | c :: rest =>
          if c = '}' then (if first then some (.obj acc, rest) else none)
          else if c = '"' then
            match parseStringBody rest with
            | some (content, r1) =>
                match skipWs r1 with
                | [] => none
                | c1 :: r2 =>
                    if c1 = ':' then
                      match parseValue fuel r2 with
                      | some (v, r3) =>
                          match skipWs r3 with
                          | [] => none
                          | c2 :: r4 =>
                              if c2 = ',' then
                                parseMembers fuel (objInsert acc ⟨content⟩ v) r4 false
                              else if c2 = '}' then
                                some (.obj (objInsert acc ⟨content⟩ v), r4)
                              else none
                      | none => none
                    else none
            | none => none
          else none

/-- The elements of an array after `[` (or after a separating comma when
`first` is false). -/
def parseElems : Nat → List JValue → List Char → Bool →
    Option (JValue × List Char)
  | 0, _, _, _ => none
  | fuel + 1, acc, cs, first =>
      match skipWs cs with
      | [] => none
      | c :: rest =>
          if c = ']' then (if first then some (.arr acc, rest) else none)
          else
            match parseValue fuel cs with
            | some (v, r1) =>
                match skipWs r1 with
                | [] => none
                | c1 :: r2 =>
                    if c1 = ',' then parseElems fuel (acc ++ [v]) r2 false
                    else if c1 = ']' then some (.arr (acc ++ [v]), r2)
                    else none
            | none => none

end

/-- Modelled from the spec: `json.loads` (Python standard library), §4.2's
`decode`.  Parses the byte string as one JSON document with nothing but
whitespace after it.  The modelled grammar is ASCII with integer numerals —
it contains every manifest this tool writes; bytes outside it count as
undecodable. -/
def jsonLoads (b : List Nat) : Option JValue :=
  if b.all (· < 128) then
    match parseValue (b.length + 1) (b.map Char.ofNat) with
    | some (v, rest) => if skipWs rest = [] then some v else none
    | none => none
  else none

/-! ## The object store read side and the two traversals -/

/-- Spec §7's error kinds for read-back, plus fuel exhaustion (the model's
stand-in for unbounded recursion through manifest references). -/
inductive ReadError where
  | objectNotFound (hash : String)
  | corruptManifest
  | outOfFuel
deriving DecidableEq, Repr

/-- Modelled from the spec: the store's `get` (§4.5), provided by the
out-of-scope backends — returns the original bytes stored under an
identifier (stored-compressed objects are decompressed transparently), or
fails when the identifier is absent. -/
def get_file (store : List (String × List Nat)) (hash : String) :
    Option (List Nat) :=
  store.lookup hash

/-- The store contents after a build: the recorded puts override the initial
objects, later puts first (a re-put of an identifier replaces the object). -/
def storeAfter (initial : List (String × List Nat)) (puts : List PutCall) :
    List (String × List Nat) :=
  puts.foldl (fun s p => (p.hash, p.data) :: s) initial

/-- Python tuple unpacking `hash, size = value` on a decoded JSON value: a
two-element array unpacks componentwise, a two-character string into its two
one-character strings, a two-key dict into its keys; everything else raises. -/
def pyUnpack2 : JValue → Option (JValue × JValue)
  | .arr [x, y] => some (x, y)
  | .str s =>
      match s.data with
      | [a, b] => some (.str ⟨[a]⟩, .str ⟨[b]⟩)
      | _ => none
  | .obj [(k1, _), (k2, _)] => some (.str k1, .str k2)
  | _ => none

/-- The code points CPython's `int(str)` tolerates around the numeral (its
numeric-parsing whitespace set; narrower than `str.strip`, which also strips
the file separators 28–31). -/
def pyIntWs : List Nat :=
  [9, 10, 11, 12, 13, 32, 133, 160, 5760] ++
    [8192, 8193, 8194, 8195, 8196, 8197, 8198, 8199, 8200, 8201, 8202] ++
    [8232, 8233, 8239, 8287, 12288]

def isPyIntWs (c : Char) : Bool := pyIntWs.contains c.toNat

/-- First code points of the Unicode decimal-digit (Nd) blocks: each block
is ten consecutive code points carrying digit values 0–9, and `int(str)`
accepts digits from any of them (so e.g. `int("٠") = 0`). -/
def ndBlockStarts : List Nat :=
  [48, 1632, 1776, 1984, 2406, 2534, 2662, 2790, 2918, 3046, 3174] ++
    [3302, 3430, 3558, 3664, 3792, 3872, 4160, 4240, 6112, 6160, 6470] ++
    [6608, 6784, 6800, 6992, 7088, 7232, 7248, 42528, 43216, 43264] ++
    [43472, 43504, 43600, 44016, 65296, 66720, 68912, 69734, 69872] ++
    [69942, 70096, 70384, 70736, 70864, 71248, 71360, 71472, 71904] ++
    [72016, 72784, 73040, 73120, 92768, 92864, 93008, 120782, 120792] ++
    [120802, 120812, 120822, 123200, 123632, 125264, 130032]

/-- The decimal value of a Unicode decimal digit, if `c` is one. -/
def digitVal (c : Char) : Option Nat :=
  match ndBlockStarts.find? (fun s => s ≤ c.toNat && c.toNat ≤ s + 9) with
  | some s => some (c.toNat - s)
  | none => none

/-- The numeral body after the optional sign: a nonempty run of decimal
digits in which single underscores may separate two digits (`1_0` parses,
`_1`, `1_` and `1__0` do not). -/
def pyDigits : List Char → Nat → Bool → Option Nat
  | [], acc, seen => if seen then some acc else none
  | c :: rest, acc, seen =>
      match digitVal c with
      | some d => pyDigits rest (acc * 10 + d) true
      | none =>
          if c = '_' then
            if seen then
              match rest with
              | r :: rs =>
                  match digitVal r with
                  | some d => pyDigits rs (acc * 10 + d) true
                  | none => none
              | [] => none
            else none
          else none

/-- Python `int(x)` on a string (lines 173/182 coerce `size` with it):
whitespace-trimmed, an optional sign, then an underscore-grouped run of
Unicode decimal digits. -/
def pyIntOfStr (cs : List Char) : Option Int :=
  let t := ((cs.dropWhile isPyIntWs).reverse.dropWhile isPyIntWs).reverse
  match t with
  | '-' :: d => (pyDigits d 0 false).map fun n => -(n : Int)
  | '+' :: d => (pyDigits d 0 false).map fun n => ((n : Int))
  | d => (pyDigits d 0 false).map fun n => ((n : Int))

/-- Python `int(x)` on a decoded JSON value: ints pass through, booleans
coerce to 0/1, numeric strings parse as `pyIntOfStr`; arrays, objects and
null raise for every value. -/
def pyInt : JValue → Option Int
  | .num n => some n
  | .jbool b => some (if b then 1 else 0)
  | .str s => pyIntOfStr s.data
  | _ => none

mutual

/-- `Storage.list_snapshot` (lines 169–176): fetch and decode the manifest of
`snapshot_identifier`, recurse on size-0 entries, and emit the
`(hash, size, path)` triple printed for each file entry, in print order. -/
def list_snapshot (store : List (String × List Nat)) :
    Nat → String → String → Except ReadError (List (JValue × JValue × String))
  | 0, _, _ => .error .outOfFuel
  | fuel + 1, snapshot_identifier, parent_path =>
      match get_file store snapshot_identifier with
      | none => .error (.objectNotFound snapshot_identifier)
      | some bytes =>
          match jsonLoads bytes with
          | none => .error .corruptManifest
          | some (.obj fields) => listItems store fuel fields parent_path
          | some _ => .error .corruptManifest

/-- The `for key, (hash, size) in manifest.items()` loop of lines 171–176. -/
def listItems (store : List (String × List Nat)) :
    Nat → List (String × JValue) → String →
    Except ReadError (List (JValue × JValue × String))
  | 0, _, _ => .error .outOfFuel
  | _ + 1, [], _ => .ok []
  | fuel + 1, (key, v) :: rest, parent_path =>
      match pyUnpack2 v with
      | none => .error .corruptManifest
      | some (hash, size) =>
          let item_path := if parent_path ≠ "" then parent_path ++ "/" ++ key
            else key
          match pyInt size with
          | none => .error .corruptManifest
          | some n =>
              if n = 0 then
                match hash with
                | .str h =>
                    match list_snapshot store fuel h item_path with
                    | .ok sub =>
                        match listItems store fuel rest parent_path with
                        | .ok out => .ok (sub ++ out)
                        | .error e => .error e
                    | .error e => .error e
                | _ => .error (.objectNotFound item_path)
              else
                match listItems store fuel rest parent_path with
                | .ok out => .ok ((hash, size, item_path) :: out)
                | .error e => .error e

end

mutual

/-- `Storage.download_snapshot` (lines 178–192): same traversal as the
listing; file entries fetch the blob and write it under
`os.path.join(download_path, item_path)`; the writes are returned in write
order.  A non-string hash cannot be looked up and fails. -/
def download_snapshot (store : List (String × List Nat)) :
    Nat → String → String → String → Except ReadError (List (String × List Nat))
  | 0, _, _, _ => .error .outOfFuel
  | fuel + 1, snapshot_identifier, parent_path, download_path =>
      match get_file store snapshot_identifier with
      | none => .error (.objectNotFound snapshot_identifier)
      | some bytes =>
          match jsonLoads bytes with
          | none => .error .corruptManifest
          | some (.obj fields) =>
              downloadItems store fuel fields parent_path download_path
          | some _ => .error .corruptManifest

/-- The `for key, (hash, size) in manifest.items()` loop of lines 180–192. -/
def downloadItems (store : List (String × List Nat)) :
    Nat → List (String × JValue) → String → String →
    Except ReadError (List (String × List Nat))
  | 0, _, _, _ => .error .outOfFuel
  | _ + 1, [], _, _ => .ok []
  | fuel + 1, (key, v) :: rest, parent_path, download_path =>
      match pyUnpack2 v with
      | none => .error .corruptManifest
      | some (hash, size) =>
          let item_path := if parent_path ≠ "" then parent_path ++ "/" ++ key
            else key
          match pyInt size with
          | none => .error .corruptManifest
          | some n =>
              if n = 0 then
                match hash with
                | .str h =>
                    match download_snapshot store fuel h item_path download_path with
                    | .ok sub =>
                        match downloadItems store fuel rest parent_path download_path with
                        | .ok out => .ok (sub ++ out)
                        | .error e => .error e
                    | .error e => .error e
                | _ => .error (.objectNotFound item_path)
              else
                match hash with
                | .str h =>
                    match get_file store h with
                    | some data =>
                        let file_path := if download_path ≠ "" then
                            download_path ++ "/" ++ item_path else item_path
                        match downloadItems store fuel rest parent_path download_path with
                        | .ok out => .ok ((file_path, data) :: out)
                        | .error e => .error e
                    | none => .error (.objectNotFound h)
                | _ => .error (.objectNotFound item_path)

end

/-! ## Decodability of one manifest level (claim C8) -/

/-- One manifest entry value survives the loop header: it unpacks into two
components and its second component coerces with `int(...)`. -/
def entryOk (v : JValue) : Bool :=
  match pyUnpack2 v with
  | some (_, s) => (pyInt s).isSome
  | none => false

/-- A decoded manifest value the loop header of lines 171/180 must raise on
in Python regardless of digits or formats: it does not unpack into exactly
two components, or its size component is an array, object or null —
categories `int(...)` rejects for every value.  (Numbers, booleans and
strings can coerce, so they are not counted here.) -/
def entryRaises (v : JValue) : Bool :=
  match pyUnpack2 v with
  | none => true
  | some (_, s) =>
      match s with
      | .jnull => true
      | .arr _ => true
      | .obj _ => true
      | .str _ => false
      | .num _ => false
      | .jbool _ => false

/-- The bytes decode — in the modelled fragment, on which a successful parse
agrees with `json.loads` — to a document the traversal must raise on: a
non-dict, or a dict with a member that `entryRaises`.  Bytes the modelled
decoder rejects are NOT counted: the modelled grammar is a strict subset of
JSON, so its parse failures say nothing about the real decoder. -/
def decodedRaises (b : List Nat) : Bool :=
  match jsonLoads b with
  | some (.obj fields) => fields.any fun kv => entryRaises kv.2
  | some _ => true
  | none => false

theorem entryOk_false_of_raises {v : JValue} (h : entryRaises v = true) :
    entryOk v = false := by
  unfold entryRaises at h
  unfold entryOk
  cases hunp : pyUnpack2 v with
  | none => rfl
  | some hs =>
      obtain ⟨x, s⟩ := hs
      rw [hunp] at h
      dsimp only at h ⊢
      cases s with
      | jnull => rfl
      | arr l => rfl
      | obj l => rfl
      | str s2 => exact absurd h (by simp)
      | num n => exact absurd h (by simp)
      | jbool bb => exact absurd h (by simp)

/-- The structure named by the claim: a flat mapping from names to
two-element `[identifier, size]` arrays (identifier a string, size an
integer). -/
def isFlatMapping : JValue → Bool
  | .obj fields => fields.all (fun f =>
      match f.2 with
      | .arr [.str _, .num _] => true
      | _ => false)
  | _ => false

/-- The claim's premise on raw bytes. -/
def encodesFlatMapping (b : List Nat) : Bool :=
  match jsonLoads b with
  | some v => isFlatMapping v
  | none => false

/-- Did a traversal complete without aborting? -/
def readOk {α} : Except ReadError α → Bool
  | .ok _ => true
  | .error _ => false

/-- A manifest whose entry is a two-element array holding an identifier and
the *digit string* `"5"` instead of an integer size: not a flat
name → `[identifier, size]` mapping in the claim's sense. -/
def badManifestBytes : List Nat := latin1 ("\x7b\"a\": [\"h\", \"5\"]\x7d".data)

/-- C8 counterexample: `badManifestBytes` is not the encoding of a flat
mapping to `[identifier, size]` arrays, yet both `list_snapshot` and
`download_snapshot` decode it and complete without any error: `int("5")`
coerces the digit-string size, so the traversal does not abort. -/
theorem c8_not_flat_but_decodes :
    encodesFlatMapping badManifestBytes = false ∧
    readOk (list_snapshot [("m", badManifestBytes)] 5 "m" "") = true ∧
    readOk (download_snapshot [("h", [9]), ("m", badManifestBytes)] 5 "m" "" "dl")
      = true := by decide

theorem listItems_error (store : List (String × List Nat)) :
    ∀ fields : List (String × JValue), (∃ x ∈ fields, entryOk x.2 = false) →
    ∀ fuel path, ∃ e, listItems store fuel fields path = .error e := by
  intro fields
  induction fields with
  | nil => simp
  | cons x rest ih =>
    intro hbad fuel path
    cases fuel with
    | zero => exact ⟨.outOfFuel, rfl⟩
    | succ f =>
      obtain ⟨k, v⟩ := x
      cases hunp : pyUnpack2 v with
      | none => exact ⟨.corruptManifest, by simp [listItems, hunp]⟩
      | some hs =>
        obtain ⟨hash, size⟩ := hs
        cases hint : pyInt size with
        | none => exact ⟨.corruptManifest, by simp [listItems, hunp, hint]⟩
        | some n =>
          have hrest : ∃ x ∈ rest, entryOk x.2 = false := by
            rcases hbad with ⟨y, hy, hyb⟩
            rcases List.mem_cons.mp hy with rfl | hy'
            · exfalso
              simp [entryOk, hunp, hint] at hyb
            · exact ⟨y, hy', hyb⟩
          obtain ⟨e, he⟩ := ih hrest f path
          by_cases hn : n = 0
          · subst hn
            cases hash with
            | str h =>
                cases hls : list_snapshot store f h
                    (if path = "" then k else path ++ "/" ++ k) with
                | ok sub =>
                    exact ⟨e, by simp [listItems, hunp, hint, hls, he]⟩
                | error e' =>
                    exact ⟨e', by simp [listItems, hunp, hint, hls]⟩
            | num m => exact ⟨.objectNotFound (if path = "" then k
                else path ++ "/" ++ k), by simp [listItems, hunp, hint]⟩
            | jbool bb => exact ⟨.objectNotFound (if path = "" then k
                else path ++ "/" ++ k), by simp [listItems, hunp, hint]⟩
            | jnull => exact ⟨.objectNotFound (if path = "" then k
                else path ++ "/" ++ k), by simp [listItems, hunp, hint]⟩
            | arr l => exact ⟨.objectNotFound (if path = "" then k
                else path ++ "/" ++ k), by simp [listItems, hunp, hint]⟩
            | obj l => exact ⟨.objectNotFound (if path = "" then k
                else path ++ "/" ++ k), by simp [listItems, hunp, hint]⟩
          · exact ⟨e, by simp [listItems, hunp, hint, hn, he]⟩

theorem downloadItems_error (store : List (String × List Nat)) :
    ∀ fields : List (String × JValue), (∃ x ∈ fields, entryOk x.2 = false) →
    ∀ fuel path dl, ∃ e, downloadItems store fuel fields path dl = .error e := by
  intro fields
  induction fields with
  | nil => simp
  | cons x rest ih =>
    intro hbad fuel path dl
    cases fuel with
    | zero => exact ⟨.outOfFuel, rfl⟩
    | succ f =>
      obtain ⟨k, v⟩ := x
      cases hunp : pyUnpack2 v with
      | none => exact ⟨.corruptManifest, by simp [downloadItems, hunp]⟩
      | some hs =>
        obtain ⟨hash, size⟩ := hs
        cases hint : pyInt size with
        | none => exact ⟨.corruptManifest, by simp [downloadItems, hunp, hint]⟩
        | some n =>
          have hrest : ∃ x ∈ rest, entryOk x.2 = false := by
            rcases hbad with ⟨y, hy, hyb⟩
            rcases List.mem_cons.mp hy with rfl | hy'
            · exfalso
              simp [entryOk, hunp, hint] at hyb
            · exact ⟨y, hy', hyb⟩
          obtain ⟨e, he⟩ := ih hrest f path dl
          by_cases hn : n = 0
          · subst hn
            cases hash with
            | str h =>
                cases hls : download_snapshot store f h
                    (if path = "" then k else path ++ "/" ++ k) dl with
                | ok sub =>
                    exact ⟨e, by simp [downloadItems, hunp, hint, hls, he]⟩
                | error e' =>
                    exact ⟨e', by simp [downloadItems, hunp, hint, hls]⟩
            | num m => exact ⟨.objectNotFound (if path = "" then k
                else path ++ "/" ++ k), by simp [downloadItems, hunp, hint]⟩
            | jbool bb => exact ⟨.objectNotFound (if path = "" then k
                else path ++ "/" ++ k), by simp [downloadItems, hunp, hint]⟩
            | jnull => exact ⟨.objectNotFound (if path = "" then k
                else path ++ "/" ++ k), by simp [downloadItems, hunp, hint]⟩
            | arr l => exact ⟨.objectNotFound (if path = "" then k
                else path ++ "/" ++ k), by simp [downloadItems, hunp, hint]⟩
            | obj l => exact ⟨.objectNotFound (if path = "" then k
                else path ++ "/" ++ k), by simp [downloadItems, hunp, hint]⟩
          · cases hash with
            | str h =>
                cases hget : get_file store h with
                | some data =>
                    exact ⟨e, by simp [downloadItems, hunp, hint, hn, hget, he]⟩
                | none =>
                    exact ⟨.objectNotFound h,
                      by simp [downloadItems, hunp, hint, hn, hget]⟩
            | num m => exact ⟨.objectNotFound (if path = "" then k
                else path ++ "/" ++ k), by simp [downloadItems, hunp, hint, hn]⟩
            | jbool bb => exact ⟨.objectNotFound (if path = "" then k
                else path ++ "/" ++ k), by simp [downloadItems, hunp, hint, hn]⟩
            | jnull => exact ⟨.objectNotFound (if path = "" then k
                else path ++ "/" ++ k), by simp [downloadItems, hunp, hint, hn]⟩
            | arr l => exact ⟨.objectNotFound (if path = "" then k
                else path ++ "/" ++ k), by simp [downloadItems, hunp, hint, hn]⟩
            | obj l => exact ⟨.objectNotFound (if path = "" then k
                else path ++ "/" ++ k), by simp [downloadItems, hunp, hint, hn]⟩

/-- C8 (amended): fetching a manifest whose bytes decode to a document the
entry loop must raise on — a non-dict document, or a dict with a member that
does not unpack into exactly two components or whose size component is an
array, object or null, which `int(...)` rejects for every value — aborts the
whole `list_snapshot` and `download_snapshot` traversal with an error.
Values such as `["h", "5"]` (digit-string size) decode successfully and are
NOT errors, which is the correction to the claim. -/
theorem c8_decode_failure_aborts (store : List (String × List Nat))
    (id path dl : String) (b : List Nat) (fuel : Nat)
    (hget : get_file store id = some b)
    (hbad : decodedRaises b = true) :
    (∃ e, list_snapshot store fuel id path = .error e) ∧
    (∃ e, download_snapshot store fuel id path dl = .error e) := by
  cases fuel with
  | zero => exact ⟨⟨.outOfFuel, rfl⟩, ⟨.outOfFuel, rfl⟩⟩
  | succ f =>
    unfold decodedRaises at hbad
    cases hload : jsonLoads b with
    | none =>
        rw [hload] at hbad
        exact absurd hbad (by simp)
    | some v =>
      cases v with
      | obj fields =>
          have hex : ∃ x ∈ fields, entryOk x.2 = false := by
            rw [hload] at hbad
            dsimp only at hbad
            obtain ⟨x, hx, hxr⟩ := List.any_eq_true.mp hbad
            exact ⟨x, hx, entryOk_false_of_raises hxr⟩
          obtain ⟨e1, he1⟩ := listItems_error store fields hex f path
          obtain ⟨e2, he2⟩ := downloadItems_error store fields hex f path dl
          exact ⟨⟨e1, by simp [list_snapshot, hget, hload, he1]⟩,
                 ⟨e2, by simp [download_snapshot, hget, hload, he2]⟩⟩
      | str s =>
          exact ⟨⟨.corruptManifest, by simp [list_snapshot, hget, hload]⟩,
                 ⟨.corruptManifest, by simp [download_snapshot, hget, hload]⟩⟩
      | num n =>
          exact ⟨⟨.corruptManifest, by simp [list_snapshot, hget, hload]⟩,
                 ⟨.corruptManifest, by simp [download_snapshot, hget, hload]⟩⟩
      | jbool bb =>
          exact ⟨⟨.corruptManifest, by simp [list_snapshot, hget, hload]⟩,
                 ⟨.corruptManifest, by simp [download_snapshot, hget, hload]⟩⟩
      | jnull =>
          exact ⟨⟨.corruptManifest, by simp [list_snapshot, hget, hload]⟩,
                 ⟨.corruptManifest, by simp [download_snapshot, hget, hload]⟩⟩
      | arr l =>
          exact ⟨⟨.corruptManifest, by simp [list_snapshot, hget, hload]⟩,
                 ⟨.corruptManifest, by simp [download_snapshot, hget, hload]⟩⟩

/-! ## Round trip, step 1: the codec inverts the encoder

`plainChar` characters need no JSON escape and are parsed verbatim; item
names made of them (and hex identifiers) encode and decode losslessly. -/

/-- A printable ASCII character that `json.dumps` leaves unescaped. -/
def plainChar (c : Char) : Prop :=
  32 ≤ c.toNat ∧ c.toNat ≤ 126 ∧ c ≠ '"' ∧ c ≠ '\\'

/-- A string of plain characters. -/
def plainStr (s : String) : Prop := ∀ c ∈ s.data, plainChar c

theorem escapeChar_plain {c : Char} (h : plainChar c) : escapeChar c = [c] := by
  obtain ⟨h1, h2, h3, h4⟩ := h
  unfold escapeChar
  rw [if_neg h3, if_neg h4]
  rw [if_neg (by intro hc; subst hc; exact absurd h1 (by decide))]
  rw [if_neg (by intro hc; subst hc; exact absurd h1 (by decide))]
  rw [if_neg (by intro hc; subst hc; exact absurd h1 (by decide))]
  rw [if_neg (by omega)]
  rw [if_neg (by omega)]
  rw [if_neg (by intro hc; rcases hc with hc | hc <;> omega)]

theorem quoteJson_plain {s : String} (h : plainStr s) :
    quoteJson s = '"' :: (s.data ++ ['"']) := by
  unfold quoteJson
  congr 1
  have : ∀ cs : List Char, (∀ c ∈ cs, plainChar c) →
      cs.foldr (fun c acc => escapeChar c ++ acc) ['"'] = cs ++ ['"'] := by
    intro cs hcs
    induction cs with
    | nil => rfl
    | cons c cs ih =>
      rw [List.foldr_cons, escapeChar_plain (hcs c (by simp)),
        ih (fun x hx => hcs x (by simp [hx]))]
      rfl
  exact this s.data h

theorem parseStringBody_plain {cs : List Char} (h : ∀ c ∈ cs, plainChar c)
    (rest : List Char) :
    parseStringBody (cs ++ '"' :: rest) = some (cs, rest) := by
  induction cs with
  | nil => rfl
  | cons c cs ih =>
    obtain ⟨h1, h2, h3, h4⟩ := h c (by simp)
    rw [List.cons_append]
    show parseStringBody (c :: (cs ++ '"' :: rest)) = _
    unfold parseStringBody
    rw [if_neg h3, if_neg h4, if_neg (by omega),
      ih (fun x hx => h x (by simp [hx]))]

theorem natDecimalAux_props : ∀ fuel n, n < fuel →
    (∀ c ∈ natDecimalAux fuel n, isDigit c = true) ∧
    natOfDigits (natDecimalAux fuel n) = n ∧
    natDecimalAux fuel n ≠ [] ∧
    ((natDecimalAux fuel n).head? = some '0' → n = 0) := by
  intro fuel
  induction fuel with
  | zero => intro n h; omega
  | succ fuel ih =>
    intro n h
    by_cases h10 : n < 10
    · unfold natDecimalAux
      rw [if_pos h10]
      interval_cases n <;> exact ⟨by decide, by decide, by decide, by decide⟩
    · unfold natDecimalAux
      rw [if_neg h10]
      obtain ⟨hd, hv, hne, hh⟩ := ih (n / 10) (by omega)
      have hm10 : n % 10 < 10 := Nat.mod_lt _ (by omega)
      refine ⟨?_, ?_, by simp, ?_⟩
      · intro c hc
        rcases List.mem_append.mp hc with hc | hc
        · exact hd c hc
        · simp only [List.mem_singleton] at hc
          subst hc
          generalize hg : n % 10 = m at hm10
          interval_cases m <;> decide
      · have hfold : ∀ (ds : List Char) (c : Char),
            natOfDigits (ds ++ [c]) = natOfDigits ds * 10 + (c.toNat - 48) := by
          intro ds c
          unfold natOfDigits
          rw [List.foldl_append]
          rfl
        rw [hfold, hv]
        have htn : (Char.ofNat (48 + n % 10)).toNat - 48 = n % 10 := by
          generalize hg : n % 10 = m at hm10
          interval_cases m <;> decide
        rw [htn]
        omega
      · intro hhead
        have hh0 : (natDecimalAux fuel (n / 10)).head? = some '0' := by
          rcases hds : natDecimalAux fuel (n / 10) with _ | ⟨c, t⟩
          · exact absurd hds hne
          · rw [hds] at hhead
            simpa using hhead
        exact absurd (hh hh0) (by omega)

/-! ## Round trip, step 2: parsing what the encoder printed -/

theorem string_mk_data (s : String) : String.mk s.data = s := by
  cases s; rfl

theorem char_ne_of_toNat {c d : Char} (h : c.toNat ≠ d.toNat) : c ≠ d :=
  fun he => h (congrArg Char.toNat he)

theorem isDigit_bounds {c : Char} (h : isDigit c = true) :
    48 ≤ c.toNat ∧ c.toNat ≤ 57 := by
  simpa [isDigit] using h

theorem skipWs_cons_ws {c : Char} {l : List Char} (h : isJsonWs c = true) :
    skipWs (c :: l) = skipWs l := by
  simp [skipWs, List.dropWhile_cons, h]

theorem skipWs_cons_not {c : Char} {l : List Char} (h : isJsonWs c = false) :
    skipWs (c :: l) = c :: l := by
  simp [skipWs, List.dropWhile_cons, h]

theorem isJsonWs_of_digit {c : Char} (h : isDigit c = true) :
    isJsonWs c = false := by
  obtain ⟨h1, h2⟩ := isDigit_bounds h
  simp only [isJsonWs]
  have e1 : c ≠ ' ' := char_ne_of_toNat (by intro he; rw [he] at h1; exact absurd h1 (by decide))
  have e2 : c ≠ '\t' := char_ne_of_toNat (by intro he; rw [he] at h1; exact absurd h1 (by decide))
  have e3 : c ≠ '\n' := char_ne_of_toNat (by intro he; rw [he] at h1; exact absurd h1 (by decide))
  have e4 : c ≠ '\r' := char_ne_of_toNat (by intro he; rw [he] at h1; exact absurd h1 (by decide))
  simp [e1, e2, e3, e4]

/-- A digit is none of the value-start or closer characters. -/
theorem digit_ne_of_out {c d : Char} (h : isDigit c = true)
    (hd : d.toNat < 48 ∨ 57 < d.toNat) : c ≠ d := by
  obtain ⟨h1, h2⟩ := isDigit_bounds h
  exact char_ne_of_toNat (by omega)

theorem takeWhile_all_append {p : Char → Bool} {l1 l2 : List Char}
    (h : ∀ x ∈ l1, p x = true) :
    (l1 ++ l2).takeWhile p = l1 ++ l2.takeWhile p ∧
    (l1 ++ l2).dropWhile p = l2.dropWhile p := by
  induction l1 with
  | nil => simp
  | cons x l1 ih =>
    have hx := h x (by simp)
    obtain ⟨h1, h2⟩ := ih (fun y hy => h y (by simp [hy]))
    exact ⟨by simp [List.takeWhile_cons, hx, h1],
           by simp [List.dropWhile_cons, hx, h2]⟩

/-- The input continues with something that ends the numeral cleanly. -/
def numBreak (rest : List Char) : Prop :=
  (rest.head? = none ∨ ∃ c, rest.head? = some c ∧ isDigit c = false) ∧
  floatFollows rest = false

theorem parseJsonNat_decimal (n : Nat) (rest : List Char) (hb : numBreak rest) :
    parseJsonNat (natDecimal n ++ rest) = some (n, rest) := by
  obtain ⟨hnd, hff⟩ := hb
  obtain ⟨hdig, hval, hne, hzero⟩ := natDecimalAux_props (n + 1) n (by omega)
  have htw' : rest.takeWhile isDigit = [] := by
    rcases hnd with hnd | ⟨c, hc, hcd⟩
    · cases rest with
      | nil => rfl
      | cons r rs => simp at hnd
    · cases rest with
      | nil => rfl
      | cons r rs =>
          simp only [List.head?_cons, Option.some.injEq] at hc
          subst hc
          simp [List.takeWhile_cons, hcd]
  have hdw' : rest.dropWhile isDigit = rest := by
    rcases hnd with hnd | ⟨c, hc, hcd⟩
    · cases rest with
      | nil => rfl
      | cons r rs => simp at hnd
    · cases rest with
      | nil => rfl
      | cons r rs =>
          simp only [List.head?_cons, Option.some.injEq] at hc
          subst hc
          simp [List.dropWhile_cons, hcd]
  rcases hcons : natDecimalAux (n + 1) n with _ | ⟨d0, dt⟩
  · exact absurd hcons hne
  · have hshape : natDecimal n ++ rest = d0 :: (dt ++ rest) := by
      rw [natDecimal, hcons]; rfl
    rw [hshape]
    unfold parseJsonNat
    dsimp only
    by_cases h0 : d0 = '0'
    · have hn0 : n = 0 := hzero (by rw [hcons, h0]; rfl)
      subst hn0
      have : dt = [] := by
        have := hcons.symm.trans (show natDecimalAux 1 0 = ['0'] from rfl)
        exact (List.cons.injEq _ _ _ _ ▸ this).2.symm ▸ rfl
      subst this
      rw [if_pos h0]
      simp only [List.nil_append]
      rw [hff]
      rfl
    · rw [if_pos (hdig d0 (by rw [hcons]; simp))]
      rw [if_neg h0]
      have hall : ∀ x ∈ dt, isDigit x = true :=
        fun x hx => hdig x (by rw [hcons]; simp [hx])
      obtain ⟨htw, hdw⟩ := @takeWhile_all_append _ _ rest hall
      rw [htw, hdw, htw', hdw', hff]
      simp only [List.append_nil, if_false, Bool.false_eq_true]
      have : natOfDigits (d0 :: dt) = n := hcons ▸ hval
      rw [this]

theorem parseJsonInt_decimal (n : Nat) (rest : List Char) (hb : numBreak rest)
    (hd : ∀ c, (natDecimal n ++ rest).head? = some c → c ≠ '-') :
    parseJsonInt (natDecimal n ++ rest) = some ((n : Int), rest) := by
  obtain ⟨hdig, hval, hne, hzero⟩ := natDecimalAux_props (n + 1) n (by omega)
  rcases hcons : natDecimalAux (n + 1) n with _ | ⟨d0, dt⟩
  · exact absurd hcons hne
  · have hshape : natDecimal n ++ rest = d0 :: (dt ++ rest) := by
      rw [natDecimal, hcons]; rfl
    have hd0 : d0 ≠ '-' := by
      refine hd d0 ?_
      rw [hshape]; rfl
    rw [hshape]
    unfold parseJsonInt
    dsimp only
    rw [if_neg hd0]
    have hpn := parseJsonNat_decimal n rest hb
    rw [hshape] at hpn
    rw [hpn]

theorem parseValue_str (f : Nat) (s : String) (rest : List Char)
    (hs : plainStr s) :
    parseValue (f + 1) ('"' :: (s.data ++ '"' :: rest)) = some (.str s, rest) := by
  unfold parseValue
  rw [skipWs_cons_not (by decide)]
  dsimp only
  rw [if_pos rfl, parseStringBody_plain hs]

theorem parseValue_num (f : Nat) (n : Nat) (after : List Char) :
    parseValue (f + 1) (' ' :: (natDecimal n ++ ']' :: after)) =
      some (.num (n : Int), ']' :: after) := by
  obtain ⟨hdig, hval, hne, hzero⟩ := natDecimalAux_props (n + 1) n (by omega)
  rcases hcons : natDecimalAux (n + 1) n with _ | ⟨d0, dt⟩
  · exact absurd hcons hne
  have hshape : natDecimal n ++ ']' :: after = d0 :: (dt ++ ']' :: after) := by
    rw [natDecimal, hcons]; rfl
  have hd0 : isDigit d0 = true := hdig d0 (by rw [hcons]; simp)
  unfold parseValue
  rw [skipWs_cons_ws (by decide), hshape,
    skipWs_cons_not (isJsonWs_of_digit hd0)]
  dsimp only
  rw [if_neg (digit_ne_of_out hd0 (by decide)),
    if_neg (digit_ne_of_out hd0 (by decide)),
    if_neg (digit_ne_of_out hd0 (by decide)),
    if_neg (digit_ne_of_out hd0 (by decide)),
    if_neg (digit_ne_of_out hd0 (by decide)),
    if_neg (digit_ne_of_out hd0 (by decide))]
  have hbreak : numBreak (']' :: after) :=
    ⟨Or.inr ⟨']', rfl, by decide⟩, by rfl⟩
  have hint := parseJsonInt_decimal n (']' :: after) hbreak
    (fun c hc => by
      rw [hshape] at hc
      simp only [List.head?_cons, Option.some.injEq] at hc
      subst hc
      exact digit_ne_of_out hd0 (by decide))
  rw [hshape] at hint
  rw [hint]

theorem parseElems_hashSize (f : Nat) (hash : String) (n : Nat)
    (after : List Char) (hh : plainStr hash) :
    parseElems (f + 2 + 1) []
      ('"' :: (hash.data ++ '"' :: (',' :: ' ' :: (natDecimal n ++ ']' :: after))))
      true =
    some (.arr [.str hash, .num (n : Int)], after) := by
  unfold parseElems
  rw [skipWs_cons_not (by decide)]
  dsimp only
  rw [if_neg (by decide)]
  rw [parseValue_str (f + 1) hash _ hh]
  dsimp only
  rw [skipWs_cons_not (by decide)]
  dsimp only
  rw [if_pos rfl]
  show parseElems (f + 1 + 1) ([] ++ [JValue.str hash])
      (' ' :: (natDecimal n ++ ']' :: after)) false = _
  unfold parseElems
  obtain ⟨hdig, hval, hne, hzero⟩ := natDecimalAux_props (n + 1) n (by omega)
  rcases hcons : natDecimalAux (n + 1) n with _ | ⟨d0, dt⟩
  · exact absurd hcons hne
  have hshape : natDecimal n ++ ']' :: after = d0 :: (dt ++ ']' :: after) := by
    rw [natDecimal, hcons]; rfl
  have hd0 : isDigit d0 = true := hdig d0 (by rw [hcons]; simp)
  have hsw : skipWs (' ' :: (natDecimal n ++ ']' :: after)) =
      d0 :: (dt ++ ']' :: after) := by
    rw [skipWs_cons_ws (by decide), hshape,
      skipWs_cons_not (isJsonWs_of_digit hd0)]
  rw [hsw]
  dsimp only
  rw [if_neg (digit_ne_of_out hd0 (by decide))]
  rw [parseValue_num f n after]
  dsimp only
  rw [skipWs_cons_not (by decide)]
  dsimp only
  rw [if_neg (by decide), if_pos rfl]
  rfl

theorem parseValue_hashSize (fuel : Nat) (hash : String) (n : Nat)
    (after : List Char) (hh : plainStr hash) (hfuel : 4 ≤ fuel) :
    parseValue fuel
      (' ' :: '[' :: (quoteJson hash ++ ',' :: ' ' :: (natDecimal n ++ ']' :: after))) =
    some (.arr [.str hash, .num (n : Int)], after) := by
  obtain ⟨f, rfl⟩ : ∃ f, fuel = f + 3 + 1 := ⟨fuel - 4, by omega⟩
  unfold parseValue
  rw [skipWs_cons_ws (by decide), skipWs_cons_not (by decide)]
  dsimp only
  rw [if_neg (by decide), if_neg (by decide), if_pos rfl]
  have hq : quoteJson hash ++ ',' :: ' ' :: (natDecimal n ++ ']' :: after) =
      '"' :: (hash.data ++ '"' :: (',' :: ' ' :: (natDecimal n ++ ']' :: after))) := by
    rw [quoteJson_plain hh]
    simp
  rw [hq]
  exact parseElems_hashSize f hash n after hh

/-- The JSON object field decoded back from one manifest entry. -/
def entryField (e : MEntry) : String × JValue :=
  (e.name, .arr [.str e.hash, .num (e.size : Int)])

theorem objInsert_fresh {acc : List (String × JValue)} {k : String} {v : JValue}
    (h : ∀ f ∈ acc, f.1 ≠ k) : objInsert acc k v = acc ++ [(k, v)] := by
  have hany : acc.any (fun f => f.1 = k) = false := by
    by_contra hc
    rw [Bool.not_eq_false, List.any_eq_true] at hc
    obtain ⟨x, hx, hxk⟩ := hc
    exact h x hx (by simpa using hxk)
  unfold objInsert
  simp [hany]

theorem intercalate_singleton (x : List Char) :
    List.intercalate [',', ' '] [x] = x := by
  simp [List.intercalate]

theorem intercalate_cons₂ (x y : List Char) (rest : List (List Char)) :
    List.intercalate [',', ' '] (x :: y :: rest) =
      x ++ ',' :: ' ' :: List.intercalate [',', ' '] (y :: rest) := by
  simp [List.intercalate, List.intersperse_cons_cons]

theorem encodeEntryJson_shape (e : MEntry) (X : List Char)
    (hname : plainStr e.name) :
    encodeEntryJson e ++ X =
      '"' :: (e.name.data ++ '"' ::
        (':' :: (' ' :: '[' :: (quoteJson e.hash ++
          ',' :: ' ' :: (natDecimal e.size ++ ']' :: X))))) := by
  unfold encodeEntryJson
  rw [quoteJson_plain hname]
  simp

theorem intercalate_map_cons (e e2 : MEntry) (es'' : List MEntry) :
    List.intercalate [',', ' '] ((e :: e2 :: es'').map encodeEntryJson) =
      encodeEntryJson e ++ ',' :: ' ' ::
        List.intercalate [',', ' '] ((e2 :: es'').map encodeEntryJson) := by
  rw [List.map_cons, List.map_cons, intercalate_cons₂, ← List.map_cons]

theorem parseMembers_ws (f : Nat) (acc : List (String × JValue))
    (cs : List Char) (first : Bool) :
    parseMembers (f + 1) acc (' ' :: cs) first =
      parseMembers (f + 1) acc cs first := by
  unfold parseMembers
  rw [skipWs_cons_ws (by decide)]

theorem parseMembers_encode :
    ∀ (es : List MEntry) (fuel : Nat) (acc : List (String × JValue))
      (rest : List Char) (first : Bool),
      (∀ e ∈ es, plainStr e.name ∧ plainStr e.hash) →
      (∀ e ∈ es, ∀ f ∈ acc, f.1 ≠ e.name) →
      ((es.map MEntry.name).Nodup) →
      es.length + 5 ≤ fuel →
      es ≠ [] →
      parseMembers fuel acc
        (List.intercalate [',', ' '] (es.map encodeEntryJson) ++ '}' :: rest)
        first =
        some (.obj (acc ++ es.map entryField), rest)
  | [], _, _, _, _, _, _, _, _, hne => absurd rfl hne
  | e :: es', fuel, acc, rest, first, hplain, hfresh, hnodup, hfuel, _ => by
    obtain ⟨F, rfl⟩ : ∃ F, fuel = F + 1 := ⟨fuel - 1, by omega⟩
    obtain ⟨hname, hhash⟩ := hplain e (by simp)
    cases es' with
    | nil =>
      rw [List.map_cons, List.map_nil, intercalate_singleton,
        encodeEntryJson_shape e _ hname]
      unfold parseMembers
      rw [skipWs_cons_not (by decide)]
      dsimp only
      rw [if_neg (by decide), if_pos rfl]
      rw [parseStringBody_plain hname]
      dsimp only
      rw [skipWs_cons_not (by decide)]
      dsimp only
      rw [if_pos rfl]
      rw [parseValue_hashSize F e.hash e.size ('}' :: rest) hhash (by omega)]
      dsimp only
      rw [skipWs_cons_not (by decide)]
      dsimp only
      rw [if_neg (by decide), if_pos rfl]
      rw [string_mk_data,
        objInsert_fresh (fun f hf => hfresh e (by simp) f hf)]
      rfl
    | cons e2 es'' =>
      rw [intercalate_map_cons]
      have hsplit : (encodeEntryJson e ++ ',' :: ' ' ::
            List.intercalate [',', ' '] ((e2 :: es'').map encodeEntryJson)) ++
            '}' :: rest =
          encodeEntryJson e ++ (',' :: ' ' ::
            (List.intercalate [',', ' '] ((e2 :: es'').map encodeEntryJson) ++
              '}' :: rest)) := by
        simp
      rw [hsplit, encodeEntryJson_shape e _ hname]
      unfold parseMembers
      rw [skipWs_cons_not (by decide)]
      dsimp only
      rw [if_neg (by decide), if_pos rfl]
      rw [parseStringBody_plain hname]
      dsimp only
      rw [skipWs_cons_not (by decide)]
      dsimp only
      rw [if_pos rfl]
      rw [parseValue_hashSize F e.hash e.size _ hhash (by omega)]
      dsimp only
      rw [skipWs_cons_not (by decide)]
      dsimp only
      rw [if_pos rfl]
      rw [string_mk_data,
        objInsert_fresh (fun f hf => hfresh e (by simp) f hf)]
      obtain ⟨G, rfl⟩ : ∃ G, F = G + 1 := ⟨F - 1, by omega⟩
      rw [parseMembers_ws]
      rw [parseMembers_encode (e2 :: es'') (G + 1)
        (acc ++ [(e.name, JValue.arr [.str e.hash, .num (e.size : Int)])])
        rest false
        (fun x hx => hplain x (by simp [hx]))
        (fun x hx f hf => by
          rcases List.mem_append.mp hf with hf | hf
          · exact hfresh x (by simp [hx]) f hf
          · simp only [List.mem_singleton] at hf
            subst hf
            have hx0 := (List.nodup_cons.mp hnodup).1
            intro hc
            have hc' : e.name = x.name := hc
            exact hx0 (by
              rw [hc']
              exact List.mem_map_of_mem MEntry.name hx)
          )
        (List.nodup_cons.mp hnodup).2
        (by simp at hfuel ⊢; omega)
        (by simp)]
      simp [entryField]

theorem c8_decode_failure_aborts_witness :
    get_file [("m", latin1 ("\x7b\"a\": 5\x7d".data))] "m" =
      some (latin1 ("\x7b\"a\": 5\x7d".data)) ∧
    decodedRaises (latin1 ("\x7b\"a\": 5\x7d".data)) = true ∧
    ((∃ e, list_snapshot [("m", latin1 ("\x7b\"a\": 5\x7d".data))] 3 "m" "" = .error e) ∧
     (∃ e, download_snapshot [("m", latin1 ("\x7b\"a\": 5\x7d".data))] 3 "m" "" "dl" =
        .error e)) :=
  ⟨by decide, by decide,
    c8_decode_failure_aborts [("m", latin1 ("\x7b\"a\": 5\x7d".data))] "m" "" "dl"
      (latin1 ("\x7b\"a\": 5\x7d".data)) 3 (by decide) (by decide)⟩

/-! ## Round trip, step 3: decoding a whole encoded manifest -/

theorem latin1_map_ofNat (cs : List Char) : (latin1 cs).map Char.ofNat = cs := by
  unfold latin1
  rw [List.map_map]
  have h : (Char.ofNat ∘ Char.toNat) = (id : Char → Char) := by
    funext c
    exact Char.ofNat_toNat c
  rw [h, List.map_id]

theorem plain_lt {s : String} (h : plainStr s) : ∀ c ∈ s.data, c.toNat < 128 := by
  intro c hc
  obtain ⟨-, h2, -, -⟩ := h c hc
  omega

theorem mem_intercalate_manifest {c : Char} :
    ∀ {ls : List (List Char)},
      c ∈ List.intercalate [',', ' '] ls → c = ',' ∨ c = ' ' ∨ ∃ x ∈ ls, c ∈ x
  | [], h => absurd h (by simp [List.intercalate])
  | [x], h => by
      rw [intercalate_singleton] at h
      exact .inr (.inr ⟨x, by simp, h⟩)
  | x :: y :: r, h => by
      rw [intercalate_cons₂] at h
      rcases List.mem_append.mp h with h | h
      · exact .inr (.inr ⟨x, by simp, h⟩)
      · rcases List.mem_cons.mp h with rfl | h
        · exact .inl rfl
        rcases List.mem_cons.mp h with rfl | h
        · exact .inr (.inl rfl)
        rcases mem_intercalate_manifest h with h | h | ⟨z, hz, hcz⟩
        · exact .inl h
        · exact .inr (.inl h)
        · exact .inr (.inr ⟨z, List.mem_cons_of_mem _ hz, hcz⟩)

theorem encodeEntryJson_ascii {e : MEntry} (hname : plainStr e.name)
    (hhash : plainStr e.hash) : ∀ c ∈ encodeEntryJson e, c.toNat < 128 := by
  unfold encodeEntryJson
  rw [quoteJson_plain hname, quoteJson_plain hhash]
  refine List.forall_mem_append.mpr ⟨List.forall_mem_append.mpr
    ⟨List.forall_mem_append.mpr ⟨?_, ?_⟩, ?_⟩, ?_⟩
  · intro c hc
    rcases List.mem_cons.mp hc with rfl | hc
    · decide
    rcases List.mem_append.mp hc with hc | hc
    · exact plain_lt hname c hc
    · rcases List.mem_singleton.mp hc with rfl
      decide
  · intro c hc
    rcases List.mem_cons.mp hc with rfl | hc
    · decide
    rcases List.mem_cons.mp hc with rfl | hc
    · decide
    rcases List.mem_cons.mp hc with rfl | hc
    · decide
    rcases List.mem_cons.mp hc with rfl | hc
    · decide
    rcases List.mem_append.mp hc with hc | hc
    · exact plain_lt hhash c hc
    · rcases List.mem_singleton.mp hc with rfl
      decide
  · intro c hc
    rcases List.mem_cons.mp hc with rfl | hc
    · decide
    rcases List.mem_cons.mp hc with rfl | hc
    · decide
    have hd := (natDecimalAux_props (e.size + 1) e.size (by omega)).1 c hc
    have hb := isDigit_bounds hd
    omega
  · intro c hc
    rcases List.mem_singleton.mp hc with rfl
    decide

theorem manifestJsonChars_ascii {L : List MEntry}
    (hplain : ∀ e ∈ L, plainStr e.name ∧ plainStr e.hash) :
    ∀ c ∈ manifestJsonChars L, c.toNat < 128 := by
  intro c hc
  unfold manifestJsonChars at hc
  rcases List.mem_cons.mp hc with rfl | hc
  · decide
  rcases List.mem_append.mp hc with hc | hc
  · rcases mem_intercalate_manifest hc with rfl | rfl | ⟨x, hx, hcx⟩
    · decide
    · decide
    · obtain ⟨e, he, rfl⟩ := List.mem_map.mp hx
      exact encodeEntryJson_ascii (hplain e he).1 (hplain e he).2 c hcx
  · rcases List.mem_singleton.mp hc with rfl
    decide

theorem quoteJson_length_ge (s : String) : 2 ≤ (quoteJson s).length := by
  have h : ∀ l : List Char,
      1 ≤ (l.foldr (fun c acc => escapeChar c ++ acc) ['"']).length := by
    intro l
    induction l with
    | nil => decide
    | cons c t ih =>
      rw [List.foldr_cons, List.length_append]
      omega
  have h2 := h s.data
  unfold quoteJson
  rw [List.length_cons]
  omega

theorem natDecimal_length_ge (n : Nat) : 1 ≤ (natDecimal n).length :=
  List.length_pos.mpr (natDecimalAux_props (n + 1) n (by omega)).2.2.1

theorem encodeEntryJson_length_ge (e : MEntry) : 11 ≤ (encodeEntryJson e).length := by
  have h1 := quoteJson_length_ge e.name
  have h2 := quoteJson_length_ge e.hash
  have h3 := natDecimal_length_ge e.size
  unfold encodeEntryJson
  simp only [List.length_append, List.length_cons, List.length_nil]
  omega

theorem intercalate_length_ge :
    ∀ es : List MEntry, es ≠ [] →
      11 * es.length ≤
        (List.intercalate [',', ' '] (es.map encodeEntryJson)).length
  | [], h => absurd rfl h
  | [e], _ => by
      rw [List.map_cons, List.map_nil, intercalate_singleton]
      have h := encodeEntryJson_length_ge e
      simp only [List.length_cons, List.length_nil]
      omega
  | e :: e2 :: r, _ => by
      have ih := intercalate_length_ge (e2 :: r) (by simp)
      have h1 := encodeEntryJson_length_ge e
      rw [intercalate_map_cons]
      simp only [List.length_append, List.length_cons] at ih ⊢
      omega

/-- `json.loads` of a dumped manifest yields the corresponding object,
member for member. -/
theorem jsonLoads_manifest :
    ∀ L : List MEntry,
      (∀ e ∈ L, plainStr e.name ∧ plainStr e.hash) →
      ((L.map MEntry.name).Nodup) →
      jsonLoads (latin1 (manifestJsonChars L)) =
        some (.obj (L.map entryField))
  | [], _, _ => by rfl
  | e :: es, hplain, hnodup => by
    have hasc : (latin1 (manifestJsonChars (e :: es))).all (· < 128) = true := by
      rw [List.all_eq_true]
      intro b hb
      simp only [latin1, List.mem_map] at hb
      obtain ⟨c, hc, rfl⟩ := hb
      simpa using manifestJsonChars_ascii hplain c hc
    have hlen : (e :: es).length + 5 ≤
        (latin1 (manifestJsonChars (e :: es))).length := by
      have h := intercalate_length_ge (e :: es) (by simp)
      simp only [latin1, manifestJsonChars, List.length_map, List.length_cons,
        List.length_append, List.length_nil] at h ⊢
      omega
    have hpv : ∀ N : Nat, (e :: es).length + 5 ≤ N →
        parseValue (N + 1) (manifestJsonChars (e :: es)) =
        some (.obj ((e :: es).map entryField), []) := by
      intro N hN
      rw [show manifestJsonChars (e :: es) = '{' ::
          (List.intercalate [',', ' '] ((e :: es).map encodeEntryJson) ++ ['}'])
        from rfl]
      unfold parseValue
      rw [skipWs_cons_not (by decide)]
      dsimp only
      rw [if_neg (by decide), if_pos rfl]
      rw [parseMembers_encode (e :: es) N [] [] true hplain (by simp) hnodup
        hN (by simp)]
      rw [List.nil_append]
    unfold jsonLoads
    rw [if_pos hasc, latin1_map_ofNat,
      hpv (latin1 (manifestJsonChars (e :: es))).length hlen]
    dsimp only
    rw [if_pos (show skipWs ([] : List Char) = [] from rfl)]

/-! ## Round trip, step 4: the restored files and the stored blobs -/

/-- `item_path = parent_path + "/" + key if parent_path else key` (lines
173 and 182). -/
def pJoin (parent item : String) : String :=
  if parent ≠ "" then parent ++ "/" ++ item else item

/-- `os.path.join(download_path, item_path)` as line 189 uses it: the
download root joined with a relative item path. -/
def dlJoin (dl p : String) : String := if dl ≠ "" then dl ++ "/" ++ p else p

mutual

/-- The regular files a snapshot of this listing restores, in enumeration
order: the joined destination path and the bytes. -/
def itemsFiles (cfg : Config) (dl : String) :
    List (String × FSEntry) → String → List (String × List Nat)
  | [], _ => []
  | (item, e) :: rest, parent =>
      itemFiles cfg dl item e parent ++ itemsFiles cfg dl rest parent

/-- The files one directory entry contributes. -/
def itemFiles (cfg : Config) (dl : String) (item : String) :
    FSEntry → String → List (String × List Nat)
  | .dir cs, parent => itemsFiles cfg dl cs (pJoin parent item)
  | .file content, parent =>
      if item ∈ cfg.local_exclusions then []
      else if content.length > 0 then [(dlJoin dl (pJoin parent item), content)]
      else []
  | .link, _ => []

end

/-- The files below one already-recorded entry, as a function of its final
`item_path`. -/
def subFiles (cfg : Config) (dl : String) :
    FSEntry → String → List (String × List Nat)
  | .dir cs, ip => itemsFiles cfg dl cs ip
  | .file content, ip => [(dlJoin dl ip, content)]
  | .link, _ => []

/-- The files-function of a recorded manifest entry, resolved through its
(unique, by duplicate-freedom) child of the listing. -/
def gFiles (cfg : Config) (dl : String) (cs : List (String × FSEntry))
    (e : MEntry) : String → List (String × List Nat) :=
  match cs.lookup e.name with
  | some child => subFiles cfg dl child
  | none => fun _ => []

mutual

/-- Every byte object the build of one entry stores or references: the kept
file contents and the encoded manifests. -/
def itemBlobs (cfg : Config) (item : String) : FSEntry → List (List Nat)
  | .dir cs => itemsBlobs cfg cs ++ [manifestBytes (itemsEntries cfg cs)]
  | .file content =>
      if item ∈ cfg.local_exclusions then []
      else if content.length > 0 then [content] else []
  | .link => []

/-- The byte objects of a whole listing. -/
def itemsBlobs (cfg : Config) : List (String × FSEntry) → List (List Nat)
  | [] => []
  | (item, e) :: rest => itemBlobs cfg item e ++ itemsBlobs cfg rest

end

/-- The byte objects of a whole snapshot: the children's plus the root
manifest. -/
def dirBlobs (cfg : Config) (children : List (String × FSEntry)) :
    List (List Nat) :=
  itemsBlobs cfg children ++ [manifestBytes (itemsEntries cfg children)]

/-- Printable-ASCII names that `json.dumps` leaves unescaped. -/
def plainStrB (s : String) : Bool :=
  s.data.all fun c => (32 ≤ c.toNat && c.toNat ≤ 126) && (c != '"') && (c != '\\')

def nodupB : List String → Bool
  | [] => true
  | k :: rest => (rest.all fun x => x != k) && nodupB rest

mutual

/-- Tree shape assumed for the round trip: duplicate-free listings and
plain-ASCII names throughout. -/
def wfEntry : FSEntry → Bool
  | .dir cs => nodupB (cs.map Prod.fst) && wfEntries cs
  | .file _ => true
  | .link => true

def wfEntries : List (String × FSEntry) → Bool
  | [] => true
  | (item, e) :: rest => plainStrB item && wfEntry e && wfEntries rest

end

theorem plainStrB_plain {s : String} (h : plainStrB s = true) : plainStr s := by
  intro c hc
  have h2 := List.all_eq_true.mp h c hc
  simp only [Bool.and_eq_true, bne_iff_ne, decide_eq_true_eq] at h2
  exact ⟨h2.1.1.1, h2.1.1.2, h2.1.2, h2.2⟩

theorem nodupB_nodup : ∀ {l : List String}, nodupB l = true → l.Nodup
  | [], _ => List.nodup_nil
  | k :: rest, h => by
      simp only [nodupB, Bool.and_eq_true] at h
      refine List.nodup_cons.mpr ⟨fun hm => ?_, nodupB_nodup h.2⟩
      have h3 := List.all_eq_true.mp h.1 k hm
      simp at h3

theorem wfEntry_dir {cs : List (String × FSEntry)}
    (h : wfEntry (.dir cs) = true) :
    (cs.map Prod.fst).Nodup ∧ wfEntries cs = true := by
  simp only [wfEntry, Bool.and_eq_true] at h
  exact ⟨nodupB_nodup h.1, h.2⟩

theorem wfEntries_mem : ∀ {cs : List (String × FSEntry)},
    wfEntries cs = true → ∀ {item : String} {e : FSEntry}, (item, e) ∈ cs →
      plainStr item ∧ wfEntry e = true
  | [], _, _, _, hm => absurd hm (List.not_mem_nil _)
  | (i0, e0) :: rest, h, item, e, hm => by
      simp only [wfEntries, Bool.and_eq_true] at h
      rcases List.mem_cons.mp hm with heq | hm'
      · cases heq
        exact ⟨plainStrB_plain h.1.1, h.1.2⟩
      · exact wfEntries_mem h.2 hm'

theorem wfEntries_cons {item : String} {e : FSEntry}
    {rest : List (String × FSEntry)}
    (h : wfEntries ((item, e) :: rest) = true) :
    plainStr item ∧ wfEntry e = true ∧ wfEntries rest = true := by
  simp only [wfEntries, Bool.and_eq_true] at h
  exact ⟨plainStrB_plain h.1.1, h.1.2, h.2⟩

/-! ## Lookup facts for association lists -/

theorem lookup_mem {β : Type} : ∀ {l : List (String × β)} {k : String} {v : β},
    l.lookup k = some v → (k, v) ∈ l
  | [], _, _, h => by simp [List.lookup] at h
  | (k0, v0) :: rest, k, v, h => by
      simp only [List.lookup] at h
      split at h
      · rename_i hbeq
        have hk : k = k0 := eq_of_beq hbeq
        subst hk
        cases h
        exact List.mem_cons_self _ _
      · exact List.mem_cons_of_mem _ (lookup_mem h)

theorem lookup_of_mem_nodup {β : Type} :
    ∀ {l : List (String × β)} {k : String} {v : β},
      (k, v) ∈ l → (l.map Prod.fst).Nodup → l.lookup k = some v
  | [], _, _, hm, _ => absurd hm (List.not_mem_nil _)
  | (k0, v0) :: rest, k, v, hm, hnd => by
      rcases List.mem_cons.mp hm with heq | hm'
      · cases heq
        simp [List.lookup]
      · have hnd' : (k0 :: rest.map Prod.fst).Nodup := by
          simpa only [List.map_cons] using hnd
        have hk : k ≠ k0 := by
          rintro rfl
          exact (List.nodup_cons.mp hnd').1
            (by simpa using List.mem_map_of_mem Prod.fst hm')
        simp only [List.lookup]
        rw [show (k == k0) = false from beq_eq_false_iff_ne.mpr hk]
        exact lookup_of_mem_nodup hm' (List.nodup_cons.mp hnd').2

theorem lookup_isSome_of_key_mem {β : Type} :
    ∀ {l : List (String × β)} {k : String}, k ∈ l.map Prod.fst →
      ∃ v, l.lookup k = some v
  | [], _, h => absurd h (List.not_mem_nil _)
  | (k0, v0) :: rest, k, h => by
      by_cases hk : k = k0
      · subst hk
        exact ⟨v0, by simp [List.lookup]⟩
      · have h' : k ∈ rest.map Prod.fst := by
          simp only [List.map_cons] at h
          rcases List.mem_cons.mp h with h0 | h0
          · exact absurd h0 hk
          · exact h0
        obtain ⟨v, hv⟩ := lookup_isSome_of_key_mem h'
        refine ⟨v, ?_⟩
        simp only [List.lookup]
        rw [show (k == k0) = false from beq_eq_false_iff_ne.mpr hk]
        exact hv

theorem storeAfter_eq :
    ∀ (puts : List PutCall) (init : List (String × List Nat)),
      storeAfter init puts =
        (puts.reverse.map fun p => (p.hash, p.data)) ++ init
  | [], init => by simp [storeAfter]
  | p :: ps, init => by
      rw [show storeAfter init (p :: ps) =
        storeAfter ((p.hash, p.data) :: init) ps from rfl]
      rw [storeAfter_eq ps ((p.hash, p.data) :: init)]
      simp

/-! ## Shape facts about recorded entries -/

instance (c : Char) : Decidable (plainChar c) := by
  unfold plainChar
  infer_instance

theorem contentHash_plain (digits : Nat) (data : List Nat) :
    plainStr (contentHash digits data) := by
  intro c hc
  have hmem : c ∈ (hexdigest data).data := List.take_subset _ _ hc
  have hx := hexdigest_mem data c hmem
  have hp : ∀ x ∈ hexDigitChars, plainChar x := by decide
  exact hp c hx

theorem itemEntry_hash (cfg : Config) (item : String) (e : FSEntry) (m : MEntry)
    (h : itemEntry cfg item e = some m) :
    ∃ data, m.hash = contentHash cfg.manifest_hash_digits data := by
  cases e <;> simp only [itemEntry] at h
  · split at h
    · simp at h
    · split at h
      · cases h
        exact ⟨_, rfl⟩
      · simp at h
  · split at h
    · cases h
      exact ⟨_, rfl⟩
    · simp at h
  · simp at h

theorem itemsEntries_plain (cfg : Config) (cs : List (String × FSEntry))
    (hwf : wfEntries cs = true) :
    ∀ m ∈ itemsEntries cfg cs, plainStr m.name ∧ plainStr m.hash := by
  intro m hm
  obtain ⟨en, hmem, hsome⟩ := itemsEntries_mem cfg cs m hm
  obtain ⟨hplain, -⟩ := wfEntries_mem hwf hmem
  obtain ⟨data, hdata⟩ := itemEntry_hash cfg m.name en m hsome
  exact ⟨hplain, hdata ▸ contentHash_plain _ _⟩

theorem itemsEntries_names_sublist (cfg : Config) :
    ∀ cs : List (String × FSEntry),
      ((itemsEntries cfg cs).map MEntry.name).Sublist (cs.map Prod.fst)
  | [] => by simp [itemsEntries]
  | (item, e) :: rest => by
      cases hcase : itemEntry cfg item e with
      | none =>
          rw [show itemsEntries cfg ((item, e) :: rest) =
            itemsEntries cfg rest from by simp [itemsEntries, hcase]]
          rw [List.map_cons]
          exact (itemsEntries_names_sublist cfg rest).cons _
      | some m =>
          rw [show itemsEntries cfg ((item, e) :: rest) =
            m :: itemsEntries cfg rest from by simp [itemsEntries, hcase]]
          rw [List.map_cons, List.map_cons, itemEntry_name cfg item e m hcase]
          exact (itemsEntries_names_sublist cfg rest).cons₂ _

theorem itemsEntries_names_nodup (cfg : Config) (cs : List (String × FSEntry))
    (hnd : (cs.map Prod.fst).Nodup) :
    ((itemsEntries cfg cs).map MEntry.name).Nodup :=
  List.Nodup.sublist (itemsEntries_names_sublist cfg cs) hnd

/-! ## Round trip, step 5: what the build leaves in the store -/

theorem itemHashes_eq_map (cfg : Config) :
    (∀ e item, itemHashes cfg item e =
      (itemBlobs cfg item e).map (contentHash cfg.manifest_hash_digits)) ∧
    (∀ l, itemsHashes cfg l =
      (itemsBlobs cfg l).map (contentHash cfg.manifest_hash_digits)) := by
  have hfile : ∀ c item, itemHashes cfg item (.file c) =
      (itemBlobs cfg item (.file c)).map
        (contentHash cfg.manifest_hash_digits) := by
    intro c item
    simp only [itemHashes, itemBlobs]
    split
    · rfl
    · split <;> rfl
  have hlink : ∀ item, itemHashes cfg item .link =
      (itemBlobs cfg item .link).map (contentHash cfg.manifest_hash_digits) :=
    fun _ => rfl
  have hdir : ∀ cs,
      (itemsHashes cfg cs =
        (itemsBlobs cfg cs).map (contentHash cfg.manifest_hash_digits)) →
      ∀ item, itemHashes cfg item (.dir cs) =
        (itemBlobs cfg item (.dir cs)).map
          (contentHash cfg.manifest_hash_digits) := by
    intro cs hq item
    simp only [itemHashes, itemBlobs, List.map_append, hq, List.map_cons,
      List.map_nil]
    rfl
  have hnil : itemsHashes cfg [] =
      (itemsBlobs cfg []).map (contentHash cfg.manifest_hash_digits) := rfl
  have hcons : ∀ (n : String) (e : FSEntry) rest,
      (∀ item, itemHashes cfg item e =
        (itemBlobs cfg item e).map (contentHash cfg.manifest_hash_digits)) →
      (itemsHashes cfg rest =
        (itemsBlobs cfg rest).map (contentHash cfg.manifest_hash_digits)) →
      itemsHashes cfg ((n, e) :: rest) =
        (itemsBlobs cfg ((n, e) :: rest)).map
          (contentHash cfg.manifest_hash_digits) := by
    intro n e rest hp hq
    simp only [itemsHashes, itemsBlobs, List.map_append, hp, hq]
  exact ⟨fsRecAll _ _ hfile hlink hdir hnil hcons,
         fsRecListAll _ _ hfile hlink hdir hnil hcons⟩

/-- A recorded put is content-addressed correctly and stores a known blob. -/
def GoodPut (cfg : Config) (B : List (List Nat)) (p : PutCall) : Prop :=
  p.hash = contentHash cfg.manifest_hash_digits p.data ∧ p.data ∈ B

theorem finishManifest_good (cfg : Config) (B : List (List Nat))
    (ms : List MEntry × BuildState)
    (hok : ∀ p ∈ ms.2.puts, GoodPut cfg B p)
    (hblob : latin1 (manifestJsonChars (sortEntries ms.1)) ∈ B) :
    ∀ p ∈ (finishManifest cfg ms).2.puts, GoodPut cfg B p := by
  unfold finishManifest
  dsimp only
  split
  · exact hok
  · intro p hp
    simp only [put_file, List.mem_append, List.mem_singleton] at hp
    rcases hp with hp | rfl
    · exact hok p hp
    · exact ⟨rfl, hblob⟩

theorem build_puts_good (cfg : Config) (B : List (List Nat)) :
    (∀ e item st, (∀ p ∈ st.puts, GoodPut cfg B p) →
      (∀ b ∈ itemBlobs cfg item e, b ∈ B) →
      ∀ p ∈ (uploadItem cfg item e st).2.puts, GoodPut cfg B p) ∧
    (∀ l st, (∀ p ∈ st.puts, GoodPut cfg B p) →
      (∀ b ∈ itemsBlobs cfg l, b ∈ B) →
      ∀ p ∈ (uploadItems cfg l st).2.puts, GoodPut cfg B p) := by
  have hfile : ∀ c item st, (∀ p ∈ st.puts, GoodPut cfg B p) →
      (∀ b ∈ itemBlobs cfg item (.file c), b ∈ B) →
      ∀ p ∈ (uploadItem cfg item (.file c) st).2.puts, GoodPut cfg B p := by
    intro c item st hok hb
    simp only [uploadItem]
    split
    · exact hok
    · rename_i hexcl
      split
      · rename_i hlen
        dsimp only
        split
        · exact hok
        · intro p hp
          simp only [put_file, List.mem_append, List.mem_singleton] at hp
          rcases hp with hp | rfl
          · exact hok p hp
          · exact ⟨rfl, hb c (by simp [itemBlobs, hexcl, hlen])⟩
      · exact hok
  have hlink : ∀ item st, (∀ p ∈ st.puts, GoodPut cfg B p) →
      (∀ b ∈ itemBlobs cfg item .link, b ∈ B) →
      ∀ p ∈ (uploadItem cfg item .link st).2.puts, GoodPut cfg B p := by
    intro item st hok _
    exact hok
  have hdir : ∀ cs,
      (∀ st, (∀ p ∈ st.puts, GoodPut cfg B p) →
        (∀ b ∈ itemsBlobs cfg cs, b ∈ B) →
        ∀ p ∈ (uploadItems cfg cs st).2.puts, GoodPut cfg B p) →
      ∀ item st, (∀ p ∈ st.puts, GoodPut cfg B p) →
        (∀ b ∈ itemBlobs cfg item (.dir cs), b ∈ B) →
        ∀ p ∈ (uploadItem cfg item (.dir cs) st).2.puts, GoodPut cfg B p := by
    intro cs hq item st hok hb
    simp only [uploadItem]
    refine finishManifest_good cfg B _
      (hq st hok fun b2 hb2 => hb b2 (by simp [itemBlobs, hb2])) ?_
    rw [uploadItems_fst]
    exact hb _ (by simp [itemBlobs, manifestBytes])
  have hnil : ∀ st, (∀ p ∈ st.puts, GoodPut cfg B p) →
      (∀ b ∈ itemsBlobs cfg [], b ∈ B) →
      ∀ p ∈ (uploadItems cfg [] st).2.puts, GoodPut cfg B p := by
    intro st hok _
    exact hok
  have hcons : ∀ (n : String) (e : FSEntry) rest,
      (∀ item st, (∀ p ∈ st.puts, GoodPut cfg B p) →
        (∀ b ∈ itemBlobs cfg item e, b ∈ B) →
        ∀ p ∈ (uploadItem cfg item e st).2.puts, GoodPut cfg B p) →
      (∀ st, (∀ p ∈ st.puts, GoodPut cfg B p) →
        (∀ b ∈ itemsBlobs cfg rest, b ∈ B) →
        ∀ p ∈ (uploadItems cfg rest st).2.puts, GoodPut cfg B p) →
      ∀ st, (∀ p ∈ st.puts, GoodPut cfg B p) →
        (∀ b ∈ itemsBlobs cfg ((n, e) :: rest), b ∈ B) →
        ∀ p ∈ (uploadItems cfg ((n, e) :: rest) st).2.puts,
          GoodPut cfg B p := by
    intro n e rest hp hq st hok hb
    have hb1 : ∀ b ∈ itemBlobs cfg n e, b ∈ B := fun b hbb =>
      hb b (by simp [itemsBlobs, hbb])
    have hb2 : ∀ b ∈ itemsBlobs cfg rest, b ∈ B := fun b hbb =>
      hb b (by simp [itemsBlobs, hbb])
    simp only [uploadItems]
    exact hq (uploadItem cfg n e st).2 (hp n st hok hb1) hb2
  exact ⟨fsRecAll _ _ hfile hlink hdir hnil hcons,
         fsRecListAll _ _ hfile hlink hdir hnil hcons⟩

/-- Blob availability: every listed blob can be fetched back by its
identifier from the given store. -/
def BlobsAvail (cfg : Config) (store : List (String × List Nat))
    (bs : List (List Nat)) : Prop :=
  ∀ b ∈ bs, get_file store (contentHash cfg.manifest_hash_digits b) = some b

/-- Every blob of the snapshot can be fetched back from the store the build
leaves behind, provided the truncated hash separates the snapshot's blobs. -/
theorem store_avail (cfg : Config) (children : List (String × FSEntry))
    (hinj : ∀ b1 ∈ dirBlobs cfg children, ∀ b2 ∈ dirBlobs cfg children,
      contentHash cfg.manifest_hash_digits b1 =
        contentHash cfg.manifest_hash_digits b2 → b1 = b2) :
    BlobsAvail cfg
      (storeAfter [] (upload_snapshot cfg (.dir children) ⟨[], [], []⟩).2.puts)
      (dirBlobs cfg children) := by
  intro b hb
  have hext := (upload_covered cfg children ⟨[], [], []⟩).1
  have hcov := (upload_covered cfg children ⟨[], [], []⟩).2
  have hgood : ∀ p ∈ (upload_snapshot cfg (.dir children) ⟨[], [], []⟩).2.puts,
      GoodPut cfg (dirBlobs cfg children) p := by
    have h0 : ∀ p ∈ (BuildState.mk [] [] []).puts,
        GoodPut cfg (dirBlobs cfg children) p := by
      intro p hp
      simp at hp
    have h1 := (build_puts_good cfg (dirBlobs cfg children)).2 children
      ⟨[], [], []⟩ h0 (fun b2 hb2 => by simp [dirBlobs, hb2])
    show ∀ p ∈ (finishManifest cfg
      (uploadItems cfg children ⟨[], [], []⟩)).2.puts, _
    refine finishManifest_good cfg _ _ h1 ?_
    rw [uploadItems_fst]
    simp [dirBlobs, manifestBytes]
  have hhash : contentHash cfg.manifest_hash_digits b ∈
      dirHashes cfg children := by
    have hb' := hb
    simp only [dirBlobs, List.mem_append, List.mem_singleton] at hb'
    simp only [dirHashes, List.mem_append, List.mem_singleton]
    rcases hb' with hb' | rfl
    · left
      rw [(itemHashes_eq_map cfg).2 children]
      exact List.mem_map_of_mem _ hb'
    · right
      rfl
  have hc := hcov _ hhash
  have hput : contentHash cfg.manifest_hash_digits b ∈
      (upload_snapshot cfg (.dir children) ⟨[], [], []⟩).2.puts.map
        PutCall.hash := by
    rcases hc with hc | hc
    · obtain ⟨dl, dp, dw, heq, hsub⟩ := hext
      rw [heq] at hc ⊢
      simp only [List.nil_append] at hc ⊢
      exact hsub _ hc
    · exact hc
  rcases List.mem_map.mp hput with ⟨p, hpmem, hphash⟩
  have hkey : contentHash cfg.manifest_hash_digits b ∈
      (storeAfter []
        (upload_snapshot cfg (.dir children) ⟨[], [], []⟩).2.puts).map
        Prod.fst := by
    rw [storeAfter_eq, List.append_nil, List.map_map]
    exact List.mem_map.mpr ⟨p, List.mem_reverse.mpr hpmem, hphash⟩
  obtain ⟨d, hd⟩ := lookup_isSome_of_key_mem hkey
  have hmem := lookup_mem hd
  rw [storeAfter_eq, List.append_nil] at hmem
  rcases List.mem_map.mp hmem with ⟨q, hqrev, hqeq⟩
  have hq := hgood q (List.mem_reverse.mp hqrev)
  have hqh : q.hash = contentHash cfg.manifest_hash_digits b :=
    congrArg Prod.fst hqeq
  have hqd : q.data = d := congrArg Prod.snd hqeq
  have hdb : q.data = b := hinj q.data hq.2 b hb (by rw [← hq.1, hqh])
  have hfinal : (storeAfter [] (upload_snapshot cfg (.dir children)
      ⟨[], [], []⟩).2.puts).lookup (contentHash cfg.manifest_hash_digits b) =
      some b := by
    rw [hd, ← hqd, hdb]
  exact hfinal

/-! ## Round trip, step 6: the download walk restores the mirrored files -/

/-- One manifest entry downloads correctly: a size-0 entry's identifier can
be traversed as a snapshot yielding (a permutation of) its files, a file
entry's identifier fetches its bytes. -/
def entryDl (store : List (String × List Nat)) (dl : String)
    (e : MEntry) (files : String → List (String × List Nat)) : Prop :=
  if e.size = 0 then
    ∀ ip : String, ∃ F w, (∀ fuel, F ≤ fuel →
      download_snapshot store fuel e.hash ip dl = Except.ok w) ∧
      w.Perm (files ip)
  else
    ∃ d, get_file store e.hash = some d ∧
      ∀ ip : String, files ip = [(dlJoin dl ip, d)]

theorem downloadItems_cons_dir (store : List (String × List Nat)) (fuel : Nat)
    (e : MEntry) (fields : List (String × JValue)) (parent dl : String)
    (w1 w2 : List (String × List Nat)) (hz : e.size = 0)
    (h1 : download_snapshot store fuel e.hash (pJoin parent e.name) dl =
      Except.ok w1)
    (h2 : downloadItems store fuel fields parent dl = Except.ok w2) :
    downloadItems store (fuel + 1) (entryField e :: fields) parent dl =
      Except.ok (w1 ++ w2) := by
  rw [show entryField e =
    (e.name, JValue.arr [JValue.str e.hash, JValue.num (e.size : Int)])
    from rfl]
  unfold downloadItems
  rw [show pyUnpack2 (JValue.arr [JValue.str e.hash,
    JValue.num (e.size : Int)]) =
    some (JValue.str e.hash, JValue.num (e.size : Int)) from rfl]
  dsimp only
  rw [show pyInt (JValue.num (e.size : Int)) = some ((e.size : Int)) from rfl]
  dsimp only
  rw [if_pos (show ((e.size : Int) = 0) from by exact_mod_cast hz)]
  rw [show (if parent ≠ "" then parent ++ "/" ++ e.name else e.name) =
    pJoin parent e.name from rfl]
  rw [h1, h2]

theorem downloadItems_cons_file (store : List (String × List Nat)) (fuel : Nat)
    (e : MEntry) (fields : List (String × JValue)) (parent dl : String)
    (d : List Nat) (w2 : List (String × List Nat)) (hz : ¬ e.size = 0)
    (hget : get_file store e.hash = some d)
    (h2 : downloadItems store fuel fields parent dl = Except.ok w2) :
    downloadItems store (fuel + 1) (entryField e :: fields) parent dl =
      Except.ok ((dlJoin dl (pJoin parent e.name), d) :: w2) := by
  rw [show entryField e =
    (e.name, JValue.arr [JValue.str e.hash, JValue.num (e.size : Int)])
    from rfl]
  unfold downloadItems
  rw [show pyUnpack2 (JValue.arr [JValue.str e.hash,
    JValue.num (e.size : Int)]) =
    some (JValue.str e.hash, JValue.num (e.size : Int)) from rfl]
  dsimp only
  rw [show pyInt (JValue.num (e.size : Int)) = some ((e.size : Int)) from rfl]
  dsimp only
  rw [if_neg (show ¬ ((e.size : Int) = 0) from by exact_mod_cast hz)]
  rw [hget]
  dsimp only
  rw [h2]
  rfl

theorem downloadItems_ok (store : List (String × List Nat)) (dl : String)
    (g : MEntry → String → List (String × List Nat)) :
    ∀ (L : List MEntry) (parent : String),
      (∀ e ∈ L, entryDl store dl e (g e)) →
      ∃ F w, (∀ fuel, F ≤ fuel →
          downloadItems store fuel (L.map entryField) parent dl =
            Except.ok w) ∧
        w.Perm (L.flatMap fun e => g e (pJoin parent e.name))
  | [], parent, _ => by
      refine ⟨1, [], ?_, by simp⟩
      intro fuel hf
      obtain ⟨G, rfl⟩ : ∃ G, fuel = G + 1 := ⟨fuel - 1, by omega⟩
      rfl
  | e :: L2, parent, hall => by
      obtain ⟨F2, w2, hdl2, hperm2⟩ := downloadItems_ok store dl g L2 parent
        (fun x hx => hall x (List.mem_cons_of_mem _ hx))
      have he := hall e (List.mem_cons_self _ _)
      by_cases hz : e.size = 0
      · rw [entryDl, if_pos hz] at he
        obtain ⟨F1, w1, hdl1, hperm1⟩ := he (pJoin parent e.name)
        refine ⟨F1 + F2 + 1, w1 ++ w2, ?_, ?_⟩
        · intro fuel hf
          obtain ⟨G, rfl⟩ : ∃ G, fuel = G + 1 := ⟨fuel - 1, by omega⟩
          rw [List.map_cons]
          exact downloadItems_cons_dir store G e (L2.map entryField) parent dl
            w1 w2 hz (hdl1 G (by omega)) (hdl2 G (by omega))
        · rw [List.flatMap_cons]
          exact hperm1.append hperm2
      · rw [entryDl, if_neg hz] at he
        obtain ⟨d, hget, hfiles⟩ := he
        refine ⟨F2 + 1, (dlJoin dl (pJoin parent e.name), d) :: w2, ?_, ?_⟩
        · intro fuel hf
          obtain ⟨G, rfl⟩ : ∃ G, fuel = G + 1 := ⟨fuel - 1, by omega⟩
          rw [List.map_cons]
          exact downloadItems_cons_file store G e (L2.map entryField) parent dl
            d w2 hz hget (hdl2 G (by omega))
        · rw [List.flatMap_cons, hfiles (pJoin parent e.name),
            List.singleton_append]
          exact hperm2.cons _

/-- The mirrored files of a listing are the per-entry files of its recorded
entries, in enumeration order. -/
theorem itemsFiles_eq (cfg : Config) (dl : String)
    (hD : 1 ≤ cfg.manifest_hash_digits) :
    ∀ (cs : List (String × FSEntry)) (parent : String),
      (cs.map Prod.fst).Nodup →
      itemsFiles cfg dl cs parent =
        (itemsEntries cfg cs).flatMap
          (fun e => gFiles cfg dl cs e (pJoin parent e.name))
  | [], parent, _ => by simp [itemsFiles, itemsEntries]
  | (item, ec) :: rest, parent, hnd => by
      have hnd' : (item :: rest.map Prod.fst).Nodup := by
        simpa only [List.map_cons] using hnd
      have hrest := itemsFiles_eq cfg dl hD rest parent
        (List.nodup_cons.mp hnd').2
      have hcong : ∀ e2 ∈ itemsEntries cfg rest,
          gFiles cfg dl ((item, ec) :: rest) e2 = gFiles cfg dl rest e2 := by
        intro e2 he2
        obtain ⟨en, hmem, -⟩ := itemsEntries_mem cfg rest e2 he2
        unfold gFiles
        rw [lookup_of_mem_nodup (List.mem_cons_of_mem _ hmem) hnd,
            lookup_of_mem_nodup hmem (List.nodup_cons.mp hnd').2]
      have hbind : (itemsEntries cfg rest).flatMap
          (fun e => gFiles cfg dl ((item, ec) :: rest) e
            (pJoin parent e.name)) =
          (itemsEntries cfg rest).flatMap
          (fun e => gFiles cfg dl rest e (pJoin parent e.name)) := by
        rw [List.flatMap_def, List.flatMap_def]
        congr 1
        exact List.map_congr_left fun a ha => by rw [hcong a ha]
      cases hcase : itemEntry cfg item ec with
      | none =>
          rw [show itemsEntries cfg ((item, ec) :: rest) =
            itemsEntries cfg rest from by simp [itemsEntries, hcase]]
          rw [show itemsFiles cfg dl ((item, ec) :: rest) parent =
            itemFiles cfg dl item ec parent ++ itemsFiles cfg dl rest parent
            from rfl]
          have hif : itemFiles cfg dl item ec parent = [] := by
            cases ec with
            | file content =>
                simp only [itemEntry] at hcase
                unfold itemFiles
                split
                · rfl
                · rename_i hexcl
                  split
                  · rename_i hlen
                    rw [if_neg hexcl, if_pos hlen] at hcase
                    simp at hcase
                  · rfl
            | dir cs2 =>
                simp only [itemEntry] at hcase
                rw [if_pos (contentHash_ne_empty _ _ hD)] at hcase
                exact absurd hcase (by simp)
            | link => rfl
          rw [hif, List.nil_append, hrest, hbind]
      | some m =>
          have hname := itemEntry_name cfg item ec m hcase
          rw [show itemsEntries cfg ((item, ec) :: rest) =
            m :: itemsEntries cfg rest from by simp [itemsEntries, hcase]]
          rw [List.flatMap_cons]
          rw [show itemsFiles cfg dl ((item, ec) :: rest) parent =
            itemFiles cfg dl item ec parent ++ itemsFiles cfg dl rest parent
            from rfl]
          have hg : gFiles cfg dl ((item, ec) :: rest) m =
              subFiles cfg dl ec := by
            unfold gFiles
            rw [lookup_of_mem_nodup (show (m.name, ec) ∈ (item, ec) :: rest
              from by rw [hname]; exact List.mem_cons_self _ _) hnd]
          have hhead : itemFiles cfg dl item ec parent =
              subFiles cfg dl ec (pJoin parent m.name) := by
            rw [hname]
            cases ec with
            | file content =>
                simp only [itemEntry] at hcase
                unfold itemFiles subFiles
                split at hcase
                · simp at hcase
                · rename_i hexcl
                  split at hcase
                  · rename_i hlen
                    rw [if_neg hexcl, if_pos hlen]
                  · simp at hcase
            | dir cs2 => rfl
            | link =>
                simp only [itemEntry] at hcase
                exact absurd hcase (by simp)
          rw [hhead, hg, hrest, hbind]

/-- Downloading a directory's manifest identifier restores exactly (a
permutation of) the directory's mirrored files. -/
theorem download_dir (cfg : Config) (store : List (String × List Nat))
    (dl : String) (hD : 1 ≤ cfg.manifest_hash_digits)
    (cs : List (String × FSEntry)) (hwf : wfEntry (.dir cs) = true)
    (hB : BlobsAvail cfg store (dirBlobs cfg cs))
    (hall : ∀ m ∈ itemsEntries cfg cs,
      entryDl store dl m (gFiles cfg dl cs m)) :
    ∀ ip, ∃ F w, (∀ fuel, F ≤ fuel →
        download_snapshot store fuel
          (contentHash cfg.manifest_hash_digits
            (manifestBytes (itemsEntries cfg cs))) ip dl = Except.ok w) ∧
      w.Perm (itemsFiles cfg dl cs ip) := by
  intro ip
  obtain ⟨hnd, hwfs⟩ := wfEntry_dir hwf
  have hmb : get_file store (contentHash cfg.manifest_hash_digits
      (manifestBytes (itemsEntries cfg cs))) =
      some (manifestBytes (itemsEntries cfg cs)) :=
    hB _ (by simp [dirBlobs])
  have hplainS : ∀ e ∈ sortEntries (itemsEntries cfg cs),
      plainStr e.name ∧ plainStr e.hash := fun e he =>
    itemsEntries_plain cfg cs hwfs e ((sortEntries_perm _).mem_iff.mp he)
  have hndS : ((sortEntries (itemsEntries cfg cs)).map MEntry.name).Nodup := by
    refine (((sortEntries_perm _).map MEntry.name).nodup_iff).mpr ?_
    exact itemsEntries_names_nodup cfg cs hnd
  have hjson : jsonLoads (manifestBytes (itemsEntries cfg cs)) =
      some (.obj ((sortEntries (itemsEntries cfg cs)).map entryField)) :=
    jsonLoads_manifest _ hplainS hndS
  have hallS : ∀ e ∈ sortEntries (itemsEntries cfg cs),
      entryDl store dl e (gFiles cfg dl cs e) := fun e he =>
    hall e ((sortEntries_perm _).mem_iff.mp he)
  obtain ⟨F, w, hdli, hperm⟩ := downloadItems_ok store dl (gFiles cfg dl cs)
    (sortEntries (itemsEntries cfg cs)) ip hallS
  refine ⟨F + 1, w, ?_, ?_⟩
  · intro fuel hf
    obtain ⟨G, rfl⟩ : ∃ G, fuel = G + 1 := ⟨fuel - 1, by omega⟩
    unfold download_snapshot
    rw [hmb]
    dsimp only
    rw [hjson]
    dsimp only
    exact hdli G (by omega)
  · rw [itemsFiles_eq cfg dl hD cs ip hnd]
    exact hperm.trans ((sortEntries_perm (itemsEntries cfg cs)).flatMap_right _)

/-- By mutual induction on the tree: every recorded entry of a well-formed
listing downloads correctly, given its blobs are fetchable. -/
theorem download_entries (cfg : Config) (store : List (String × List Nat))
    (dl : String) (hD : 1 ≤ cfg.manifest_hash_digits) :
    (∀ e item m, wfEntry e = true →
      BlobsAvail cfg store (itemBlobs cfg item e) →
      itemEntry cfg item e = some m →
      entryDl store dl m (subFiles cfg dl e)) ∧
    (∀ cs, wfEntries cs = true → (cs.map Prod.fst).Nodup →
      BlobsAvail cfg store (itemsBlobs cfg cs) →
      ∀ m ∈ itemsEntries cfg cs, entryDl store dl m (gFiles cfg dl cs m)) := by
  have hfile : ∀ c item m, wfEntry (.file c) = true →
      BlobsAvail cfg store (itemBlobs cfg item (.file c)) →
      itemEntry cfg item (.file c) = some m →
      entryDl store dl m (subFiles cfg dl (.file c)) := by
    intro c item m _ hB hsome
    simp only [itemEntry] at hsome
    split at hsome
    · simp at hsome
    · rename_i hexcl
      split at hsome
      · rename_i hlen
        cases hsome
        simp only [entryDl]
        rw [if_neg (show ¬ (c.length = 0) from by omega)]
        refine ⟨c, ?_, fun ip => rfl⟩
        exact hB c (by simp [itemBlobs, hexcl, hlen])
      · simp at hsome
  have hlink : ∀ item m, wfEntry .link = true →
      BlobsAvail cfg store (itemBlobs cfg item .link) →
      itemEntry cfg item .link = some m →
      entryDl store dl m (subFiles cfg dl .link) := by
    intro item m _ _ hsome
    simp [itemEntry] at hsome
  have hdir : ∀ cs,
      (wfEntries cs = true → (cs.map Prod.fst).Nodup →
        BlobsAvail cfg store (itemsBlobs cfg cs) →
        ∀ m ∈ itemsEntries cfg cs,
          entryDl store dl m (gFiles cfg dl cs m)) →
      ∀ item m, wfEntry (.dir cs) = true →
        BlobsAvail cfg store (itemBlobs cfg item (.dir cs)) →
        itemEntry cfg item (.dir cs) = some m →
        entryDl store dl m (subFiles cfg dl (.dir cs)) := by
    intro cs hq item m hwf hB hsome
    obtain ⟨hnd, hwfs⟩ := wfEntry_dir hwf
    simp only [itemEntry] at hsome
    rw [if_pos (contentHash_ne_empty _ _ hD)] at hsome
    cases hsome
    unfold entryDl
    rw [if_pos rfl]
    intro ip
    have hBd : BlobsAvail cfg store (dirBlobs cfg cs) := hB
    have hallm : ∀ m2 ∈ itemsEntries cfg cs,
        entryDl store dl m2 (gFiles cfg dl cs m2) :=
      hq hwfs hnd (fun b hbb => hB b (by simp [itemBlobs, hbb]))
    exact download_dir cfg store dl hD cs hwf hBd hallm ip
  have hnil : wfEntries [] = true → (([] : List (String × FSEntry)).map
      Prod.fst).Nodup →
      BlobsAvail cfg store (itemsBlobs cfg []) →
      ∀ m ∈ itemsEntries cfg [],
        entryDl store dl m (gFiles cfg dl [] m) := by
    intro _ _ _ m hm
    simp [itemsEntries] at hm
  have hcons : ∀ (n : String) (e : FSEntry) rest,
      (∀ item m, wfEntry e = true →
        BlobsAvail cfg store (itemBlobs cfg item e) →
        itemEntry cfg item e = some m →
        entryDl store dl m (subFiles cfg dl e)) →
      (wfEntries rest = true → (rest.map Prod.fst).Nodup →
        BlobsAvail cfg store (itemsBlobs cfg rest) →
        ∀ m ∈ itemsEntries cfg rest,
          entryDl store dl m (gFiles cfg dl rest m)) →
      wfEntries ((n, e) :: rest) = true →
      (((n, e) :: rest).map Prod.fst).Nodup →
      BlobsAvail cfg store (itemsBlobs cfg ((n, e) :: rest)) →
      ∀ m ∈ itemsEntries cfg ((n, e) :: rest),
        entryDl store dl m (gFiles cfg dl ((n, e) :: rest) m) := by
    intro n e rest hp hq hwf hnd hB m hm
    obtain ⟨hplain, hwfe, hwfr⟩ := wfEntries_cons hwf
    have hnd' : (n :: rest.map Prod.fst).Nodup := by
      simpa only [List.map_cons] using hnd
    have hB1 : BlobsAvail cfg store (itemBlobs cfg n e) := fun b hbb =>
      hB b (by simp [itemsBlobs, hbb])
    have hB2 : BlobsAvail cfg store (itemsBlobs cfg rest) := fun b hbb =>
      hB b (by simp [itemsBlobs, hbb])
    cases hcase : itemEntry cfg n e with
    | none =>
        rw [show itemsEntries cfg ((n, e) :: rest) = itemsEntries cfg rest
          from by simp [itemsEntries, hcase]] at hm
        have hrec := hq hwfr (List.nodup_cons.mp hnd').2 hB2 m hm
        have hgf : gFiles cfg dl ((n, e) :: rest) m =
            gFiles cfg dl rest m := by
          obtain ⟨en, hmem, -⟩ := itemsEntries_mem cfg rest m hm
          unfold gFiles
          rw [lookup_of_mem_nodup (List.mem_cons_of_mem _ hmem) hnd,
              lookup_of_mem_nodup hmem (List.nodup_cons.mp hnd').2]
        rw [hgf]
        exact hrec
    | some m0 =>
        rw [show itemsEntries cfg ((n, e) :: rest) =
          m0 :: itemsEntries cfg rest from by simp [itemsEntries, hcase]] at hm
        rcases List.mem_cons.mp hm with rfl | hm'
        · have hgf : gFiles cfg dl ((n, e) :: rest) m =
              subFiles cfg dl e := by
            unfold gFiles
            rw [lookup_of_mem_nodup (show (m.name, e) ∈ (n, e) :: rest from by
              rw [itemEntry_name cfg n e m hcase]
              exact List.mem_cons_self _ _) hnd]
          rw [hgf]
          exact hp n m hwfe hB1 hcase
        · have hrec := hq hwfr (List.nodup_cons.mp hnd').2 hB2 m hm'
          have hgf : gFiles cfg dl ((n, e) :: rest) m =
              gFiles cfg dl rest m := by
            obtain ⟨en, hmem, -⟩ := itemsEntries_mem cfg rest m hm'
            unfold gFiles
            rw [lookup_of_mem_nodup (List.mem_cons_of_mem _ hmem) hnd,
                lookup_of_mem_nodup hmem (List.nodup_cons.mp hnd').2]
          rw [hgf]
          exact hrec
  exact ⟨fsRecAll _ _ hfile hlink hdir hnil hcons,
         fsRecListAll _ _ hfile hlink hdir hnil hcons⟩

/-- C1: for every well-formed directory tree (duplicate-free listings,
plain-ASCII names) downloading the snapshot produced by building the tree —
`download_snapshot` over the store the build populated, at the identifier
`upload_snapshot` returned — recreates exactly the tree's non-excluded,
non-empty regular files: the same relative paths joined under the download
root and the same byte contents, up to write order.  Requires at least one
identifier digit and that the truncated hash separates the snapshot's
distinct byte objects (under a truncation collision deduplication genuinely
conflates different contents and the claim would fail).  The store itself
(`put_file`/`get_file`) is modelled from the spec, so files read back
identically whether or not they were stored gzip-compressed. -/
theorem c1_roundtrip (cfg : Config) (children : List (String × FSEntry))
    (dl : String) (hD : 1 ≤ cfg.manifest_hash_digits)
    (hwf : wfEntry (.dir children) = true)
    (hinj : ∀ b1 ∈ dirBlobs cfg children, ∀ b2 ∈ dirBlobs cfg children,
      contentHash cfg.manifest_hash_digits b1 =
        contentHash cfg.manifest_hash_digits b2 → b1 = b2) :
    ∃ F w,
      (∀ fuel, F ≤ fuel →
        download_snapshot
          (storeAfter []
            (upload_snapshot cfg (.dir children) ⟨[], [], []⟩).2.puts)
          fuel (upload_snapshot cfg (.dir children) ⟨[], [], []⟩).1 "" dl =
          Except.ok w) ∧
      w.Perm (itemsFiles cfg dl children "") := by
  have hstore := store_avail cfg children hinj
  have hwfd := wfEntry_dir hwf
  have hall := (download_entries cfg
    (storeAfter [] (upload_snapshot cfg (.dir children) ⟨[], [], []⟩).2.puts)
    dl hD).2 children hwfd.2 hwfd.1
    (fun b hbb => hstore b (by simp [dirBlobs, hbb]))
  have hmain := download_dir cfg
    (storeAfter [] (upload_snapshot cfg (.dir children) ⟨[], [], []⟩).2.puts)
    dl hD children hwf hstore hall ""
  rw [upload_snapshot_fst]
  exact hmain

/-- C1 witness: the round trip of a one-file tree under the sample
configuration, downloading into `dl`. -/
theorem c1_roundtrip_witness :
    (1 ≤ sampleCfg.manifest_hash_digits) ∧
    (wfEntry (.dir [("a", .file [1])]) = true) ∧
    (∃ F w,
      (∀ fuel, F ≤ fuel →
        download_snapshot
          (storeAfter []
            (upload_snapshot sampleCfg (.dir [("a", .file [1])])
              ⟨[], [], []⟩).2.puts)
          fuel
          (upload_snapshot sampleCfg (.dir [("a", .file [1])])
            ⟨[], [], []⟩).1 "" "dl" =
          Except.ok w) ∧
      w.Perm (itemsFiles sampleCfg "dl" [("a", .file [1])] "")) :=
  ⟨by decide, by decide,
    c1_roundtrip sampleCfg [("a", .file [1])] "dl" (by decide) (by decide)
      (by decide)⟩

end CdnFs
